import Mathlib

/-!
Verification of protoc-jsgen-plugin: type resolver, type mapping, name transforms and
output file names.

A shallow embedding of `src/src/type_resolver.cc`, `src/src/type_helper.cc`,
`src/src/string_extensions.cc` and `src/src/request_processor.cc`.

* `std::string` is a Lean `String`, read through its character list, one `Char` for one
  `char`; positions are natural numbers and `std::string::npos` is `none`.
* `substr` is checked: a start position beyond the end of the string is `none`
  (the `std::out_of_range` of the C++ library), and every function that calls it
  returns an `Option`.
* `std::unordered_map` is a list of key/value pairs with pairwise distinct keys.
* The process-wide `type_name_transformer_` is passed as an explicit argument,
  `none` being the empty `std::function`.
-/

namespace protoc_js_gen_plugin

/-! ## The parts of `std::string` the sources use -/

/-- The test `s.empty()`. -/
def empty (s : String) : Bool := s.data.isEmpty

/-- The character `s[0]` of a string, `none` when the string is empty. -/
def front (s : String) : Option Char := s.data.head?

/-- Worker of `find`: the first position, counted from `i`, at which `needle` starts. -/
def findAux (needle : List Char) : List Char → Nat → Option Nat
  | [], i => if needle.isPrefixOf [] then some i else none
  | c :: t, i => if needle.isPrefixOf (c :: t) then some i else findAux needle t (i + 1)

/-- The call `s.find(needle)`: the position of the first occurrence of `needle` in `s`. -/
def find (s needle : String) : Option Nat := findAux needle.data s.data 0

/-- Worker of `find_last_of`: the last position of a character of `cs`. -/
def findLastOfAux (cs : List Char) : List Char → Option Nat
  | [] => none
  | c :: t =>
    match findLastOfAux cs t with
    | some p => some (p + 1)
    | none => if cs.contains c then some 0 else none

/-- The call `s.find_last_of(cs)`: the last position in `s` holding one of the characters `cs`. -/
def find_last_of (s : String) (cs : List Char) : Option Nat := findLastOfAux cs s.data

/-- The call `s.substr(pos)`: the characters from `pos` on; `none` when `pos > s.size()`. -/
def substr (s : String) (pos : Nat) : Option String :=
  if pos ≤ s.data.length then some (String.mk (s.data.drop pos)) else none

/-! ## Descriptors (the fields of `descriptor.proto` the sources read) -/

/-- The enumeration `FieldDescriptorProto::Type`. -/
inductive FieldDescriptorProto_Type where
  | TYPE_DOUBLE | TYPE_FLOAT | TYPE_INT64 | TYPE_UINT64 | TYPE_INT32 | TYPE_FIXED64
  | TYPE_FIXED32 | TYPE_BOOL | TYPE_STRING | TYPE_GROUP | TYPE_MESSAGE | TYPE_BYTES
  | TYPE_UINT32 | TYPE_ENUM | TYPE_SFIXED32 | TYPE_SFIXED64 | TYPE_SINT32 | TYPE_SINT64
  deriving DecidableEq, Repr

/-- The enumeration `FieldDescriptorProto::Label`. -/
inductive FieldDescriptorProto_Label where
  | LABEL_OPTIONAL | LABEL_REQUIRED | LABEL_REPEATED
  deriving DecidableEq, Repr

structure FieldDescriptorProto where
  name : String
  label : FieldDescriptorProto_Label
  type : FieldDescriptorProto_Type
  type_name : String
  deriving DecidableEq, Repr

structure EnumDescriptorProto where
  name : String
  deriving DecidableEq, Repr

inductive DescriptorProto where
  | mk (name : String) (field : List FieldDescriptorProto)
      (nested_type : List DescriptorProto) (enum_type : List EnumDescriptorProto)

/-- The accessor `message.name()`. -/
def DescriptorProto.name : DescriptorProto → String
  | .mk n _ _ _ => n

/-- The accessor `message.field()`. -/
def DescriptorProto.field : DescriptorProto → List FieldDescriptorProto
  | .mk _ f _ _ => f

/-- The accessor `message.nested_type()`. -/
def DescriptorProto.nested_type : DescriptorProto → List DescriptorProto
  | .mk _ _ n _ => n

/-- The accessor `message.enum_type()`. -/
def DescriptorProto.enum_type : DescriptorProto → List EnumDescriptorProto
  | .mk _ _ _ e => e

structure FileDescriptorProto where
  name : String
  package : String
  message_type : List DescriptorProto
  enum_type : List EnumDescriptorProto

/-! ## `TypeResolver` -/

/-- The pair `TypeResolver::TypeInfo`: `(proto_file, simple_name)`. -/
abbrev TypeInfo := String × String

/-- The map `std::unordered_map<std::string, TypeInfo>`, as a list with distinct keys. -/
abbrev TypeMap := List (String × TypeInfo)

/-- The lookup `m.find(k)`, `none` standing for `m.end()`. -/
def TypeMap.find (m : TypeMap) (k : String) : Option TypeInfo := m.lookup k

/-- The assignment `m[k] = v`: the entry of `k` is created or overwritten. -/
def TypeMap.assign (m : TypeMap) (k : String) (v : TypeInfo) : TypeMap :=
  (k, v) :: m.filter (fun e => e.1 != k)

structure TypeResolver where
  type_map_ : TypeMap
  current_file_ : FileDescriptorProto
  all_proto_files_ : List FileDescriptorProto

namespace TypeResolver

def GetFullName (name package parent_full_name : String) : String :=
  if !empty parent_full_name then
    parent_full_name ++ "." ++ name
  else if !empty package then
    "." ++ package ++ "." ++ name
  else
    "." ++ name

def RegisterEnum (enum_type : EnumDescriptorProto) (proto_file : FileDescriptorProto)
    (parent_full_name : String) (type_map_ : TypeMap) : TypeMap :=
  let full_name := GetFullName enum_type.name proto_file.package parent_full_name
  type_map_.assign full_name (proto_file.name, enum_type.name)

mutual
def RegisterMessage (message : DescriptorProto) (proto_file : FileDescriptorProto)
    (parent_full_name : String) (type_map_ : TypeMap) : TypeMap :=
  match message with
  | .mk name _ nested_type enum_type =>
    let full_name := GetFullName name proto_file.package parent_full_name
    let type_map_ := type_map_.assign full_name (proto_file.name, name)
    let type_map_ := RegisterNested nested_type proto_file full_name type_map_
    enum_type.foldl (fun m nested_enum => RegisterEnum nested_enum proto_file full_name m)
      type_map_
/-- The loop `for (nested_message : message.nested_type()) RegisterMessage(...)`. -/
def RegisterNested (nested_type : List DescriptorProto) (proto_file : FileDescriptorProto)
    (full_name : String) (type_map_ : TypeMap) : TypeMap :=
  match nested_type with
  | [] => type_map_
  | nested_message :: rest =>
    RegisterNested rest proto_file full_name
      (RegisterMessage nested_message proto_file full_name type_map_)
end

/-- The body of the outer loop of `BuildTypeMap` for one file. -/
def RegisterFile (proto_file : FileDescriptorProto) (type_map_ : TypeMap) : TypeMap :=
  let type_map_ := RegisterNested proto_file.message_type proto_file "" type_map_
  proto_file.enum_type.foldl (fun m enum_type => RegisterEnum enum_type proto_file "" m)
    type_map_

def BuildTypeMap (all_proto_files_ : List FileDescriptorProto) (type_map_ : TypeMap) :
    TypeMap :=
  all_proto_files_.foldl (fun m proto_file => RegisterFile proto_file m) type_map_

/-- The constructor `TypeResolver(current_file, all_proto_files)`. -/
def new (current_file : FileDescriptorProto) (all_proto_files : List FileDescriptorProto) :
    TypeResolver :=
  { type_map_ := BuildTypeMap all_proto_files [],
    current_file_ := current_file,
    all_proto_files_ := all_proto_files }

def GetExternalTypeInfo (self : TypeResolver) (type_name : String) : Option TypeInfo :=
  let normalized_name :=
    if empty type_name ∨ front type_name ≠ some '.' then "." ++ type_name else type_name
  match self.type_map_.find normalized_name with
  | some info => if info.1 = self.current_file_.name then none else some info
  | none => none

/-- The second argument stands for the iteration order of the local
`std::unordered_set<TypeInfo, PairHash, PairEqual>`, which the C++ standard leaves to the
library: `iteration_order` maps the distinct elements, in order of first insertion, to the
sequence `imports.begin() .. imports.end()`. -/
def GetRequiredImports (self : TypeResolver)
    (iteration_order : List TypeInfo → List TypeInfo)
    (referenced_type_names : List String) : List TypeInfo :=
  let imports := referenced_type_names.foldl
    (fun imports type_name =>
      match self.GetExternalTypeInfo type_name with
      | some info => if info ∈ imports then imports else imports ++ [info]
      | none => imports) []
  iteration_order imports

end TypeResolver

/-! ## `TypeHelper` -/

/-- The type `TypeHelper::TypeNameTransformer`; `none` is the empty `std::function`. -/
abbrev TypeNameTransformer := Option (String → FileDescriptorProto → String)

def GetLastComponent (str : String) : Option String :=
  match find_last_of str ['.'] with
  | none => some str
  | some pos => substr str (pos + 1)

namespace TypeHelper

/-- The `proto_file` argument is a pointer in the source: `none` is `nullptr`. The
character loop that replaces dots is written as a map over the characters. -/
def GetIndependentClassName (full_type_name : String)
    (proto_file : Option FileDescriptorProto) : Option String :=
  (if !empty full_type_name ∧ front full_type_name = some '.' then substr full_type_name 1
   else some full_type_name).bind fun processed_name =>
  (match proto_file with
   | some pf =>
     if !empty pf.package then
       let pkg_pre := pf.package ++ "."
       if find processed_name pkg_pre = some 0 then substr processed_name pkg_pre.length
       else some processed_name
     else some processed_name
   | none => some processed_name).bind fun processed_name =>
  let class_name := String.mk (processed_name.data.map fun c => if c = '.' then '_' else c)
  some ("__" ++ class_name)

def GetMessageTypeName (type_name : String) (proto_file : FileDescriptorProto) :
    Option String :=
  (if !empty type_name ∧ front type_name = some '.' then substr type_name 1
   else some type_name).bind fun processed_name =>
  if !empty proto_file.package ∧
      find processed_name (proto_file.package ++ ".") = some 0 then
    (substr processed_name (proto_file.package.length + 1)).bind fun without_package =>
    if find without_package "." ≠ none then
      GetIndependentClassName type_name (some proto_file)
    else
      GetLastComponent processed_name
  else
    GetLastComponent processed_name

def GetBaseJsType (type_name_transformer_ : TypeNameTransformer)
    (field : FieldDescriptorProto) (proto_file : FileDescriptorProto) : Option String :=
  match field.type with
  | .TYPE_DOUBLE | .TYPE_FLOAT => some "number"
  | .TYPE_INT64 | .TYPE_UINT64 | .TYPE_INT32 | .TYPE_FIXED64 | .TYPE_FIXED32
  | .TYPE_UINT32 | .TYPE_SFIXED32 | .TYPE_SFIXED64 | .TYPE_SINT32 | .TYPE_SINT64 =>
    some "number"
  | .TYPE_BOOL => some "boolean"
  | .TYPE_STRING => some "string"
  | .TYPE_BYTES => some "Uint8Array"
  | .TYPE_ENUM =>
    match type_name_transformer_ with
    | some transformer =>
      let transformed := transformer field.type_name proto_file
      if !empty transformed then some transformed else GetLastComponent field.type_name
    | none => GetLastComponent field.type_name
  | .TYPE_MESSAGE =>
    match type_name_transformer_ with
    | some transformer =>
      let transformed := transformer field.type_name proto_file
      if !empty transformed then some transformed
      else GetMessageTypeName field.type_name proto_file
    | none => GetMessageTypeName field.type_name proto_file
  | _ => some "any"

def IsMapField (field : FieldDescriptorProto) : Bool :=
  field.type = .TYPE_MESSAGE && field.label = .LABEL_REPEATED &&
    (find field.type_name "Entry").isSome

def GetJsType (type_name_transformer_ : TypeNameTransformer)
    (field : FieldDescriptorProto) (proto_file : FileDescriptorProto) : Option String :=
  (GetBaseJsType type_name_transformer_ field proto_file).bind fun base_type =>
  if field.label = .LABEL_REPEATED then
    if IsMapField field then some "any" else some (base_type ++ "[]")
  else
    some base_type

end TypeHelper

/-! ## `string_extensions.cc` -/

/-- The character `s[i]`, with the index checked: `none` when `i` is not a position of
`s`. -/
def char_at (s : String) (i : Nat) : Option Char := s.data.get? i

/-- The call `std::toupper` on an `unsigned char`, in the `"C"` locale the program runs
in: the letters `a` to `z` are mapped to `A` to `Z`, every other character is kept. -/
def toupper (c : Char) : Char := c.toUpper

/-- The call `std::getline(ss, part, delimiter)` on a stream that still holds `stream`:
`none` when the stream is at its end (nothing is extracted and the stream fails),
otherwise the characters before the first delimiter, and the stream after that
delimiter. -/
def getline (stream : List Char) (delimiter : Char) : Option (String × List Char) :=
  match stream with
  | [] => none
  | _ :: _ =>
    some (String.mk (stream.takeWhile fun c => c != delimiter),
      (stream.dropWhile fun c => c != delimiter).drop 1)

/-- The loop `while (std::getline(ss, part, delimiter)) parts.push_back(part)`, for at
most `fuel` turns. -/
def SplitStringLoop (delimiter : Char) : Nat → List Char → List String → List String
  | 0, _, parts => parts
  | fuel + 1, stream, parts =>
    match getline stream delimiter with
    | none => parts
    | some (part, rest) => SplitStringLoop delimiter fuel rest (parts ++ [part])

/-- Every turn of the loop takes at least one character off the stream, so that
`str.size() + 1` turns always reach the failing `getline`. -/
def SplitString (str : String) (delimiter : Char) : List String :=
  SplitStringLoop delimiter (str.data.length + 1) str.data []

/-- The loop `for (size_t i = 0; i < parts.size(); ++i)` of `SnakeToCamelCase`, from the
index `i` on; the first argument holds `parts[i]`, `parts[i + 1]`, and so on. -/
def SnakeToCamelCaseLoop : List String → Nat → String → Option String
  | [], _, result => some result
  | part :: rest, i, result =>
    if empty part then SnakeToCamelCaseLoop rest (i + 1) result
    else if i = 0 then
      SnakeToCamelCaseLoop rest (i + 1) (result ++ part)
    else
      (char_at part 0).bind fun c =>
      let result := result.push (toupper c)
      if part.data.length > 1 then
        (substr part 1).bind fun tail => SnakeToCamelCaseLoop rest (i + 1) (result ++ tail)
      else
        SnakeToCamelCaseLoop rest (i + 1) result

def SnakeToCamelCase (snake_case : String) : Option String :=
  if empty snake_case then some snake_case
  else
    let parts := SplitString snake_case '_'
    SnakeToCamelCaseLoop parts 0 ""

/-- The loop `for (const auto& part : parts)` of `SnakeToPascalCase`. -/
def SnakeToPascalCaseLoop : List String → String → Option String
  | [], result => some result
  | part :: rest, result =>
    if empty part then SnakeToPascalCaseLoop rest result
    else
      (char_at part 0).bind fun c =>
      let result := result.push (toupper c)
      if part.data.length > 1 then
        (substr part 1).bind fun tail => SnakeToPascalCaseLoop rest (result ++ tail)
      else
        SnakeToPascalCaseLoop rest result

def SnakeToPascalCase (snake_case : String) : Option String :=
  if empty snake_case then some snake_case
  else
    let parts := SplitString snake_case '_'
    SnakeToPascalCaseLoop parts ""

namespace TypeHelper

def GetMethodName (field : FieldDescriptorProto) : Option String :=
  SnakeToPascalCase field.name

end TypeHelper

/-! ## `request_processor.cc` -/

/-- The call `s.substr(pos, n)`: at most `n` characters from `pos` on; `none` when
`pos > s.size()`. -/
def substr_n (s : String) (pos n : Nat) : Option String :=
  if pos ≤ s.data.length then some (String.mk ((s.data.drop pos).take n)) else none

/-- The fields of `CodeGeneratorRequest` that `ProcessRequest` reads. -/
structure CodeGeneratorRequest where
  file_to_generate : List String
  proto_file : List FileDescriptorProto

/-- The message `CodeGeneratorResponse::File`. -/
structure CodeGeneratorResponse_File where
  name : String
  content : String
  deriving DecidableEq, Repr

structure CodeGeneratorResponse where
  file : List CodeGeneratorResponse_File
  deriving DecidableEq, Repr

namespace RequestProcessor

def ChangeExtension (path new_ext : String) : Option String :=
  match find_last_of path ['.'] with
  | none => some (path ++ new_ext)
  | some dot_pos =>
    let slash_pos := find_last_of path ['/', '\\']
    if slash_pos.any fun slash_pos => dot_pos < slash_pos then
      some (path ++ new_ext)
    else
      (substr_n path 0 dot_pos).map fun stem => stem ++ new_ext

def GetOutputFileName (proto_file_name : String) : Option String :=
  ChangeExtension proto_file_name ".mjs"

/-- The emitter `JsCodeGenerator(proto_file, type_resolver).Generate()` is defined in
`js_code_generator.cc`, which is not among the sources: it is the argument `Generate`. -/
def GenerateFileContent (Generate : FileDescriptorProto → TypeResolver → String)
    (proto_file : FileDescriptorProto) (all_proto_files : List FileDescriptorProto) :
    String :=
  let type_resolver := TypeResolver.new proto_file all_proto_files
  Generate proto_file type_resolver

/-- The loop `for (proto_file : request.proto_file())` of `ProcessRequest`, over the files
not yet visited. -/
def ProcessRequestLoop (Generate : FileDescriptorProto → TypeResolver → String)
    (request : CodeGeneratorRequest) (all_proto_files : List FileDescriptorProto) :
    List FileDescriptorProto → CodeGeneratorResponse → Option CodeGeneratorResponse
  | [], response => some response
  | proto_file :: rest, response =>
    if !request.file_to_generate.contains proto_file.name then
      ProcessRequestLoop Generate request all_proto_files rest response
    else
      let file_content := GenerateFileContent Generate proto_file all_proto_files
      (GetOutputFileName proto_file.name).bind fun output_name =>
      ProcessRequestLoop Generate request all_proto_files rest
        { file := response.file ++ [{ name := output_name, content := file_content }] }

def ProcessRequest (Generate : FileDescriptorProto → TypeResolver → String)
    (request : CodeGeneratorRequest) : Option CodeGeneratorResponse :=
  let all_proto_files := request.proto_file
  ProcessRequestLoop Generate request all_proto_files request.proto_file { file := [] }

end RequestProcessor

/-! ## Reference definitions used in the statements -/

/-- A type name with one leading `.` removed (the first step of both naming rules). -/
def stripLeadingDot (t : String) : String :=
  if front t = some '.' then String.mk (t.data.drop 1) else t

/-- The keys of the index. -/
def TypeMap.keys (m : TypeMap) : List String := m.map Prod.fst

/-- File `a.proto` of the two-file scenario: package `pkg`, message `Foo` with a singular
`int32` field `id` and a nested message `Bar`. -/
def a_proto : FileDescriptorProto :=
  { name := "a.proto", package := "pkg",
    message_type :=
      [.mk "Foo" [⟨"id", .LABEL_OPTIONAL, .TYPE_INT32, ""⟩] [.mk "Bar" [] [] []] []],
    enum_type := [] }

/-- File `b.proto` of the two-file scenario: package `pkg`, message `Baz` with a field of
type `pkg.Foo`. -/
def b_proto : FileDescriptorProto :=
  { name := "b.proto", package := "pkg",
    message_type := [.mk "Baz" [⟨"foo", .LABEL_OPTIONAL, .TYPE_MESSAGE, ".pkg.Foo"⟩] [] []],
    enum_type := [] }

/-- A file of package `pkg` whose message `Outer` declares the nested enum `Kind` and a
field of that enum type. -/
def nested_enum_proto : FileDescriptorProto :=
  { name := "outer.proto", package := "pkg",
    message_type :=
      [.mk "Outer" [⟨"kind", .LABEL_OPTIONAL, .TYPE_ENUM, ".pkg.Outer.Kind"⟩] [] [⟨"Kind"⟩]],
    enum_type := [] }

/-- The fully-qualified name of a type of package `p` reached by the nesting path
`n1, ..., nk`: `"." + p + "." + n1 + "." + ... + "." + nk`, the `p` segment being
omitted when `p` is empty. -/
def qualifiedName (p : String) (path : List String) : String :=
  (if empty p then path else p :: path).foldl (fun acc n => acc ++ "." ++ n) ""

/-- Reachability `MessageAt ms path m`: from the messages `ms`, the message `m` is reached by the nesting
path `path`, the names of the messages entered one after the other, that of `m` last. -/
inductive MessageAt : List DescriptorProto → List String → DescriptorProto → Prop where
  | here {ms : List DescriptorProto} {m : DescriptorProto} :
      m ∈ ms → MessageAt ms [m.name] m
  | nested {ms : List DescriptorProto} {outer m : DescriptorProto} {path : List String} :
      outer ∈ ms → MessageAt outer.nested_type path m → MessageAt ms (outer.name :: path) m

mutual
/-- The types a message declares, each as (nesting path, simple name): the message, the
types of its nested messages, and its nested enums. -/
def messageTypes : DescriptorProto → List (List String × String)
  | .mk name _ nested_type enum_type =>
    ([name], name) ::
      (messagesTypes nested_type ++ enum_type.map fun e => ([e.name], e.name)).map
        fun d => (name :: d.1, d.2)
/-- The types declared by a list of messages. -/
def messagesTypes : List DescriptorProto → List (List String × String)
  | [] => []
  | m :: ms => messageTypes m ++ messagesTypes ms
end

/-- The types a file declares: those of its messages, then its top-level enums. -/
def fileTypes (F : FileDescriptorProto) : List (List String × String) :=
  messagesTypes F.message_type ++ F.enum_type.map fun e => ([e.name], e.name)

/-- The fully-qualified names of all types of a compilation unit, one per declaration. -/
def unitTypeNames (files : List FileDescriptorProto) : List String :=
  files.flatMap fun F => (fileTypes F).map fun d => qualifiedName F.package d.1

/-! ## The registrations `BuildTypeMap` performs

The same traversal as `RegisterMessage`, `RegisterEnum` and `BuildTypeMap`, recording each
assignment `type_map_[full_name] = (file, name)` instead of performing it. -/

mutual
/-- The assignments of one call of `RegisterMessage`, in order. -/
def registrationsOfMessage (message : DescriptorProto) (proto_file : FileDescriptorProto)
    (parent_full_name : String) : List (String × TypeInfo) :=
  match message with
  | .mk name _ nested_type enum_type =>
    let full_name := TypeResolver.GetFullName name proto_file.package parent_full_name
    (full_name, (proto_file.name, name)) ::
      (registrationsOfNested nested_type proto_file full_name ++
        enum_type.map fun nested_enum =>
          (TypeResolver.GetFullName nested_enum.name proto_file.package full_name,
            (proto_file.name, nested_enum.name)))
/-- The assignments of the loop over the nested messages. -/
def registrationsOfNested (nested_type : List DescriptorProto)
    (proto_file : FileDescriptorProto) (full_name : String) : List (String × TypeInfo) :=
  match nested_type with
  | [] => []
  | nested_message :: rest =>
    registrationsOfMessage nested_message proto_file full_name ++
      registrationsOfNested rest proto_file full_name
end

/-- The assignments `BuildTypeMap` performs for one file. -/
def registrationsOfFile (proto_file : FileDescriptorProto) : List (String × TypeInfo) :=
  registrationsOfNested proto_file.message_type proto_file "" ++
    proto_file.enum_type.map fun enum_type =>
      (TypeResolver.GetFullName enum_type.name proto_file.package "",
        (proto_file.name, enum_type.name))

/-- The assignments `BuildTypeMap` performs, in order. -/
def registrations (all_proto_files : List FileDescriptorProto) : List (String × TypeInfo) :=
  all_proto_files.flatMap registrationsOfFile

/-- Message `C` of `deep_unit`, with the nested enum `E`. -/
def deep_C : DescriptorProto := .mk "C" [] [] [⟨"E"⟩]

/-- Message `B` of `deep_unit`, with the nested message `C`. -/
def deep_B : DescriptorProto := .mk "B" [] [deep_C] []

/-- Message `A` of `deep_unit`, with the nested messages `B` and `D` and the enum `K`. -/
def deep_A : DescriptorProto := .mk "A" [] [deep_B, .mk "D" [] [] []] [⟨"K"⟩]

/-- File `x.proto` of `deep_unit`, of package `p.q`. -/
def deep_x_proto : FileDescriptorProto :=
  { name := "x.proto", package := "p.q", message_type := [deep_A], enum_type := [⟨"Top"⟩] }

/-- File `y.proto` of `deep_unit`, without package. -/
def deep_y_proto : FileDescriptorProto :=
  { name := "y.proto", package := "",
    message_type := [.mk "A" [] [.mk "B" [] [] []] []], enum_type := [⟨"K"⟩] }

/-- A compilation unit with nesting of depth three, nested and top-level enums, and a file
without package. -/
def deep_unit : List FileDescriptorProto := [deep_x_proto, deep_y_proto]

/-- A file of package `pkg` whose message `Outer` declares the nested message `Inner`. -/
def nested_message_proto : FileDescriptorProto :=
  { name := "nested.proto", package := "pkg",
    message_type := [.mk "Outer" [] [.mk "Inner" [] [] []] []],
    enum_type := [] }

/-- The start shared by the fully-qualified names of the types of a file: a dot, then the
package and a dot when the file has a package. -/
def typeNameBase (file : FileDescriptorProto) : String :=
  if empty file.package then "." else "." ++ file.package ++ "."

/-- A file of package `pkg` with the nested types `A.B_C`, `A_B.C` and `Outer.Inner`, and
a top-level message named `__Outer_Inner`. -/
def collision_proto : FileDescriptorProto :=
  { name := "collision.proto", package := "pkg",
    message_type :=
      [.mk "A" [] [.mk "B_C" [] [] []] [], .mk "A_B" [] [.mk "C" [] [] []] [],
       .mk "Outer" [] [.mk "Inner" [] [] []] [], .mk "__Outer_Inner" [] [] []],
    enum_type := [] }

/-- A segment with its first character upper-cased (ASCII), the rest unchanged. -/
def capitalizeSegment : List Char → List Char
  | [] => []
  | c :: cs => c.toUpper :: cs

/-- The non-empty segments obtained by splitting `s` at `_`, in order. -/
def snakeSegments (s : String) : List (List Char) :=
  (s.data.splitOn '_').filter fun seg => !seg.isEmpty

/-- The concatenation of the non-empty segments of `s`, each with its first character
upper-cased. -/
def pascalCaseOf (s : String) : String :=
  String.mk ((snakeSegments s).map capitalizeSegment).flatten

/-- The camelCase form: the first non-empty segment of `s` unchanged, followed by the later
non-empty segments, each with its first character upper-cased. -/
def camelCaseOf (s : String) : String :=
  match snakeSegments s with
  | [] => ""
  | first :: rest => String.mk (first ++ (rest.map capitalizeSegment).flatten)

/-- A file without package whose message `Outer` declares the nested message `Inner` and
a field of that type. -/
def no_package_proto : FileDescriptorProto :=
  { name := "nopkg.proto", package := "",
    message_type :=
      [.mk "Outer" [⟨"inner", .LABEL_OPTIONAL, .TYPE_MESSAGE, ".Outer.Inner"⟩]
        [.mk "Inner" [] [] []] []],
    enum_type := [] }

/-- A string with its first character upper-cased (ASCII), the rest unchanged. -/
def capitalizeFirst (r : String) : String := String.mk (capitalizeSegment r.data)

/-- The assignments `regs` performed on `m` one after the other. -/
def TypeMap.assignAll (m : TypeMap) (regs : List (String × TypeInfo)) : TypeMap :=
  regs.foldl (fun m e => m.assign e.1 e.2) m

end protoc_js_gen_plugin

/-! ## Lemmas on the string operations -/

namespace protoc_js_gen_plugin

theorem empty_iff (s : String) : empty s = true ↔ s = "" := by
  cases s with
  | mk l => cases l <;> simp [empty, String.ext_iff]

theorem empty_false_of_front {s : String} {c : Char} (h : front s = some c) :
    empty s = false := by
  cases s with
  | mk l => cases l <;> simp_all [empty, front]

theorem front_dot_append (s : String) : front ("." ++ s) = some '.' := by
  simp [front, String.data_append]

theorem empty_dot_append (s : String) : empty ("." ++ s) = false := by
  simp [empty, String.data_append]

theorem substr_of_le {s : String} {pos : Nat} (h : pos ≤ s.data.length) :
    substr s pos = some (String.mk (s.data.drop pos)) := by
  unfold substr
  rw [if_pos h]

theorem findLastOfAux_lt (cs : List Char) :
    ∀ (l : List Char) (p : Nat), findLastOfAux cs l = some p → p < l.length := by
  intro l
  induction l with
  | nil => intro p h; simp [findLastOfAux] at h
  | cons c t ih =>
    intro p h
    cases hq : findLastOfAux cs t with
    | some q =>
      simp only [findLastOfAux, hq, Option.some.injEq] at h
      have := ih q hq
      simp only [List.length_cons]
      omega
    | none =>
      simp only [findLastOfAux, hq] at h
      split at h
      · simp only [Option.some.injEq] at h
        simp only [List.length_cons]
        omega
      · simp at h

theorem findAux_eq_start (needle : List Char) :
    ∀ (hay : List Char) (i : Nat), findAux needle hay i = some i ↔ needle <+: hay := by
  have hge : ∀ (hay : List Char) (i j : Nat), findAux needle hay i = some j → i ≤ j := by
    intro hay
    induction hay with
    | nil =>
      intro i j h
      simp only [findAux] at h
      split at h
      · simp only [Option.some.injEq] at h; omega
      · simp at h
    | cons c t ih =>
      intro i j h
      simp only [findAux] at h
      split at h
      · simp only [Option.some.injEq] at h; omega
      · have := ih _ _ h; omega
  intro hay i
  cases hay with
  | nil =>
    simp only [findAux]
    split
    · rename_i h; simpa using List.isPrefixOf_iff_prefix.mp h
    · rename_i h
      simp only [false_iff, reduceCtorEq]
      intro hp; exact h (List.isPrefixOf_iff_prefix.mpr hp)
  | cons c t =>
    simp only [findAux]
    split
    · rename_i h; simpa using List.isPrefixOf_iff_prefix.mp h
    · rename_i h
      constructor
      · intro h2; have := hge _ _ _ h2; omega
      · intro hp; exact absurd (List.isPrefixOf_iff_prefix.mpr hp) h

theorem find_zero_iff (s needle : String) :
    find s needle = some 0 ↔ needle.data <+: s.data := by
  simpa [find] using findAux_eq_start needle.data s.data 0

theorem findAux_isSome_iff (needle : List Char) :
    ∀ (hay : List Char) (i : Nat), (findAux needle hay i).isSome = true ↔ needle <:+: hay := by
  intro hay
  induction hay with
  | nil =>
    intro i
    simp only [findAux]
    split
    · rename_i h
      have := List.isPrefixOf_iff_prefix.mp h
      simp only [Option.isSome_some, true_iff]
      exact this.isInfix
    · rename_i h
      simp only [Option.isSome_none, Bool.false_eq_true, false_iff]
      intro hi
      have : needle = [] := by simpa using hi
      subst this
      simp at h
  | cons c t ih =>
    intro i
    simp only [findAux]
    split
    · rename_i h
      simp only [Option.isSome_some, true_iff]
      exact (List.isPrefixOf_iff_prefix.mp h).isInfix
    · rename_i h
      rw [ih (i + 1), List.infix_cons_iff]
      constructor
      · intro h2; exact Or.inr h2
      · intro h2
        rcases h2 with h2 | h2
        · exact absurd (List.isPrefixOf_iff_prefix.mpr h2) h
        · exact h2

/-- The test `s.find(needle) != npos` holds exactly when `needle` occurs in `s`. -/
theorem find_isSome_iff (s needle : String) :
    (find s needle).isSome = true ↔ ∃ pre post : String, s = pre ++ needle ++ post := by
  rw [find, findAux_isSome_iff]
  constructor
  · rintro ⟨a, b, h⟩
    exact ⟨String.mk a, String.mk b, by simp [String.ext_iff, String.data_append, h]⟩
  · rintro ⟨pre, post, h⟩
    exact ⟨pre.data, post.data, by simp [h, String.data_append]⟩

theorem strip_step (t : String) :
    (if !empty t ∧ front t = some '.' then substr t 1 else some t)
      = some (stripLeadingDot t) := by
  cases t with
  | mk l =>
    cases l with
    | nil => simp [empty, front, stripLeadingDot]
    | cons c r =>
      by_cases hc : c = '.'
      · subst hc
        simp [empty, front, stripLeadingDot, substr]
      · simp [empty, front, stripLeadingDot, hc]

theorem GetLastComponent_total (s : String) : ∃ r, GetLastComponent s = some r := by
  unfold GetLastComponent find_last_of
  cases h : findLastOfAux ['.'] s.data with
  | none => exact ⟨s, rfl⟩
  | some p =>
    have hlt := findLastOfAux_lt _ _ _ h
    exact ⟨_, substr_of_le (by omega)⟩

/-- Removing one leading dot does not change the last component. -/
theorem GetLastComponent_strip (t : String) :
    GetLastComponent (stripLeadingDot t) = GetLastComponent t := by
  cases t with
  | mk l =>
    cases l with
    | nil => simp [stripLeadingDot, front]
    | cons c r =>
      by_cases hc : c = '.'
      · subst hc
        have hs : stripLeadingDot (String.mk ('.' :: r)) = String.mk r := by
          simp [stripLeadingDot, front]
        rw [hs]
        unfold GetLastComponent find_last_of
        cases h : findLastOfAux ['.'] r with
        | none =>
          simp [findLastOfAux, h, substr]
        | some p =>
          have hlt := findLastOfAux_lt _ _ _ h
          have h1 : p + 1 ≤ r.length := by omega
          have h2 : p + 1 + 1 ≤ r.length + 1 := by omega
          simp [findLastOfAux, h, substr, h1, h2]
      · simp [stripLeadingDot, front, hc]

theorem findLastOfAux_dot (l : List Char) :
    (findLastOfAux ['.'] l = none → '.' ∉ l) ∧
    (∀ p, findLastOfAux ['.'] l = some p →
      '.' ∉ l.drop (p + 1) ∧ l = l.take p ++ '.' :: l.drop (p + 1)) := by
  induction l with
  | nil => simp [findLastOfAux]
  | cons c t ih =>
    cases hq : findLastOfAux ['.'] t with
    | some q =>
      obtain ⟨h1, h2⟩ := ih.2 q hq
      refine ⟨by simp [findLastOfAux, hq], ?_⟩
      intro p hp
      simp only [findLastOfAux, hq, Option.some.injEq] at hp
      subst hp
      refine ⟨by simpa using h1, ?_⟩
      simp only [List.take_succ_cons, List.drop_succ_cons, List.cons_append, List.cons.injEq,
        true_and]
      exact h2
    | none =>
      have hn := ih.1 hq
      by_cases hc : c = '.'
      · subst hc
        refine ⟨by simp [findLastOfAux, hq], ?_⟩
        intro p hp
        simp [findLastOfAux, hq] at hp
        subst hp
        simpa using hn
      · refine ⟨?_, ?_⟩
        · intro _
          simp only [List.mem_cons, not_or]
          exact ⟨fun h => hc h.symm, hn⟩
        · intro p hp
          simp [findLastOfAux, hq, hc] at hp

/-- The function `GetLastComponent` returns the part of the string after its last dot: a string without
a dot that is the whole input or follows a dot of the input. -/
theorem GetLastComponent_spec (s : String) :
    ∃ r, GetLastComponent s = some r ∧ '.' ∉ r.data ∧
      (s = r ∨ ∃ pre : String, s = pre ++ "." ++ r) := by
  have hd := findLastOfAux_dot s.data
  unfold GetLastComponent find_last_of
  cases h : findLastOfAux ['.'] s.data with
  | none => exact ⟨s, rfl, hd.1 h, Or.inl rfl⟩
  | some p =>
    have hlt := findLastOfAux_lt _ _ _ h
    obtain ⟨h1, h2⟩ := hd.2 p h
    refine ⟨_, substr_of_le (by omega), h1, Or.inr ⟨String.mk (s.data.take p), ?_⟩⟩
    rw [String.ext_iff]
    simp only [String.data_append, List.append_assoc, List.singleton_append]
    exact h2

namespace TypeHelper

theorem GetIndependentClassName_total (t : String) (pf : Option FileDescriptorProto) :
    ∃ r, GetIndependentClassName t pf = some r := by
  unfold GetIndependentClassName
  rw [strip_step]
  simp only [Option.some_bind]
  cases pf with
  | none => exact ⟨_, rfl⟩
  | some f =>
    simp only
    by_cases he : (!empty f.package) = true
    · by_cases hf : find (stripLeadingDot t) (f.package ++ ".") = some 0
      · have hp := (find_zero_iff _ _).mp hf
        have hle : (f.package ++ ".").length ≤ (stripLeadingDot t).data.length := hp.length_le
        rw [if_pos he, if_pos hf, substr_of_le hle]
        exact ⟨_, rfl⟩
      · rw [if_pos he, if_neg hf]
        exact ⟨_, rfl⟩
    · rw [if_neg he]
      exact ⟨_, rfl⟩

theorem GetMessageTypeName_total (t : String) (f : FileDescriptorProto) :
    ∃ r, GetMessageTypeName t f = some r := by
  unfold GetMessageTypeName
  rw [strip_step]
  simp only [Option.some_bind]
  split
  · rename_i h
    have hp := (find_zero_iff _ _).mp h.2
    have hle : f.package.length + 1 ≤ (stripLeadingDot t).data.length := by
      have := hp.length_le
      simpa [String.data_append] using this
    rw [substr_of_le hle]
    simp only [Option.some_bind]
    split
    · exact GetIndependentClassName_total _ _
    · exact GetLastComponent_total _
  · exact GetLastComponent_total _

/-- Every call of `GetMessageTypeName` returns the last component of the name or its
independent class name. -/
theorem GetMessageTypeName_cases (t : String) (f : FileDescriptorProto) :
    GetMessageTypeName t f = GetLastComponent t ∨
      GetMessageTypeName t f = GetIndependentClassName t (some f) := by
  unfold GetMessageTypeName
  rw [strip_step]
  simp only [Option.some_bind]
  split
  · rename_i h
    have hp := (find_zero_iff _ _).mp h.2
    have hle : f.package.length + 1 ≤ (stripLeadingDot t).data.length := by
      have := hp.length_le
      simpa [String.data_append] using this
    rw [substr_of_le hle]
    simp only [Option.some_bind]
    split
    · exact Or.inr rfl
    · exact Or.inl (GetLastComponent_strip t)
  · exact Or.inl (GetLastComponent_strip t)

theorem GetBaseJsType_total (tr : TypeNameTransformer) (field : FieldDescriptorProto)
    (f : FileDescriptorProto) : ∃ r, GetBaseJsType tr field f = some r := by
  cases hty : field.type <;> cases tr <;> simp only [GetBaseJsType, hty] <;>
    first
    | exact ⟨_, rfl⟩
    | exact GetLastComponent_total _
    | exact GetMessageTypeName_total _ _
    | (split <;> first
        | exact ⟨_, rfl⟩
        | exact GetLastComponent_total _
        | exact GetMessageTypeName_total _ _)

end TypeHelper

/-! ## `TypeResolver::GetExternalTypeInfo` -/

theorem TypeMap.find_eq_none_iff (m : TypeMap) (k : String) :
    m.find k = none ↔ k ∉ m.keys := by
  induction m with
  | nil => simp [TypeMap.find, TypeMap.keys]
  | cons e m ih =>
    obtain ⟨a, b⟩ := e
    simp only [TypeMap.find, TypeMap.keys, List.map_cons, List.mem_cons, not_or] at ih ⊢
    by_cases h : k = a
    · subst h; simp [List.lookup]
    · have hb : (k == a) = false := by simpa using h
      simp [List.lookup, hb, h, ih]

theorem normalize_eq (t : String) :
    (if empty t ∨ front t ≠ some '.' then "." ++ t else t)
      = (if front t = some '.' then t else "." ++ t) := by
  by_cases h : front t = some '.'
  · simp [h, empty_false_of_front h]
  · simp [h]

/-- C1: with `idx` the index built by the constructor from `(current_file, all_proto_files)`
and `t'` the name `t` with a leading dot supplied when it has none,
`GetExternalTypeInfo t` is absent exactly when `t'` is not a key of `idx` or the owner file
recorded for `t'` is the current file's name; otherwise it is the recorded pair. -/
theorem GetExternalTypeInfo_absent_iff (current_file : FileDescriptorProto)
    (all_proto_files : List FileDescriptorProto) (t : String) :
    let r := TypeResolver.new current_file all_proto_files
    let idx := r.type_map_
    let t' := if front t = some '.' then t else "." ++ t
    (r.GetExternalTypeInfo t = none ↔
        (t' ∉ idx.keys ∨ ∃ info, idx.find t' = some info ∧ info.1 = current_file.name)) ∧
    (∀ info, idx.find t' = some info → info.1 ≠ current_file.name →
        r.GetExternalTypeInfo t = some info) := by
  intro r idx t'
  have hr : r.GetExternalTypeInfo t =
      match idx.find t' with
      | some info => if info.1 = current_file.name then none else some info
      | none => none := by
    simp only [TypeResolver.GetExternalTypeInfo, normalize_eq]
    rfl
  rw [hr, ← TypeMap.find_eq_none_iff]
  cases hf : idx.find t' with
  | none => simp
  | some info =>
    by_cases ho : info.1 = current_file.name
    · simp [ho]
    · simp only [ho, if_false, reduceCtorEq, false_or, false_iff, Option.some.injEq,
        not_exists, not_and, forall_eq', not_false_eq_true, true_and]
      intro _
      trivial

/-- Witness of C1 on the two-file scenario: seen from `b.proto`, `.pkg.Foo` resolves to the
pair recorded for it. -/
theorem GetExternalTypeInfo_absent_iff_witness :
    (TypeResolver.new b_proto [a_proto, b_proto]).GetExternalTypeInfo ".pkg.Foo"
      = some ("a.proto", "Foo") :=
  (GetExternalTypeInfo_absent_iff b_proto [a_proto, b_proto] ".pkg.Foo").2
    ("a.proto", "Foo") (by decide) (by decide)

/-- C4: for every resolver, a name without a leading dot resolves exactly like the same
name with a leading dot put in front (the empty name resolves like `"."`). -/
theorem GetExternalTypeInfo_leading_dot (r : TypeResolver) (s : String)
    (h : front s ≠ some '.') :
    r.GetExternalTypeInfo s = r.GetExternalTypeInfo ("." ++ s) := by
  have h1 : (if empty s ∨ front s ≠ some '.' then "." ++ s else s) = "." ++ s := by
    rw [normalize_eq, if_neg h]
  have h2 : (if empty ("." ++ s) ∨ front ("." ++ s) ≠ some '.' then "." ++ ("." ++ s)
      else "." ++ s) = "." ++ s := by
    rw [normalize_eq, if_pos (front_dot_append s)]
  simp only [TypeResolver.GetExternalTypeInfo, h1, h2]

/-- Witness of C4 at the empty name and a resolver over the two-file scenario. -/
theorem GetExternalTypeInfo_leading_dot_witness :
    front "" ≠ some '.' ∧
    (TypeResolver.new b_proto [a_proto, b_proto]).GetExternalTypeInfo ""
      = (TypeResolver.new b_proto [a_proto, b_proto]).GetExternalTypeInfo ("." ++ "") :=
  ⟨by decide, GetExternalTypeInfo_leading_dot _ "" (by decide)⟩

/-! ## `TypeHelper`: type mapping -/

namespace TypeHelper

/-- C5: on a scalar kind (neither enum nor message) `GetBaseJsType` depends on the kind
only: two fields of the same kind give the same result whatever their label, name,
type name, file and installed transformer. Double, float and the ten integer kinds give
`number`, bool gives `boolean`, string gives `string`, bytes gives `Uint8Array` and the
remaining kind (group) gives `any`. -/
theorem GetBaseJsType_scalar (tr tr' : TypeNameTransformer) (f g : FieldDescriptorProto)
    (file file' : FileDescriptorProto)
    (hs : f.type ≠ .TYPE_ENUM ∧ f.type ≠ .TYPE_MESSAGE) (hty : g.type = f.type) :
    GetBaseJsType tr f file = GetBaseJsType tr' g file' ∧
    (f.type ∈ [.TYPE_DOUBLE, .TYPE_FLOAT, .TYPE_INT64, .TYPE_UINT64, .TYPE_INT32,
        .TYPE_FIXED64, .TYPE_FIXED32, .TYPE_UINT32, .TYPE_SFIXED32, .TYPE_SFIXED64,
        .TYPE_SINT32, .TYPE_SINT64] → GetBaseJsType tr f file = some "number") ∧
    (f.type = .TYPE_BOOL → GetBaseJsType tr f file = some "boolean") ∧
    (f.type = .TYPE_STRING → GetBaseJsType tr f file = some "string") ∧
    (f.type = .TYPE_BYTES → GetBaseJsType tr f file = some "Uint8Array") ∧
    (f.type = .TYPE_GROUP → GetBaseJsType tr f file = some "any") := by
  obtain ⟨h1, h2⟩ := hs
  cases hf : f.type <;> simp only [hf] at h1 h2 hty <;>
    simp [GetBaseJsType, hf, hty] at h1 h2 ⊢

/-- Witness of C5: a singular `int32` field and a repeated one with another name, a type
name, another file and a transformer installed. -/
theorem GetBaseJsType_scalar_witness :
    (FieldDescriptorProto_Type.TYPE_INT32 ≠ .TYPE_ENUM ∧
      FieldDescriptorProto_Type.TYPE_INT32 ≠ .TYPE_MESSAGE) ∧
    GetBaseJsType none ⟨"id", .LABEL_OPTIONAL, .TYPE_INT32, ""⟩ a_proto
      = GetBaseJsType (some fun _ _ => "X") ⟨"ids", .LABEL_REPEATED, .TYPE_INT32, ".pkg.Foo"⟩
          b_proto ∧
    GetBaseJsType none ⟨"id", .LABEL_OPTIONAL, .TYPE_INT32, ""⟩ a_proto = some "number" :=
  ⟨⟨by decide, by decide⟩,
   (GetBaseJsType_scalar none (some fun _ _ => "X") ⟨"id", .LABEL_OPTIONAL, .TYPE_INT32, ""⟩
      ⟨"ids", .LABEL_REPEATED, .TYPE_INT32, ".pkg.Foo"⟩ a_proto b_proto
      ⟨by decide, by decide⟩ rfl).1,
   by decide⟩

/-- C6: for a field with `IsMapField` true, `GetJsType` is exactly `any`, without a `[]`
suffix, for every file and every installed transformer. -/
theorem GetJsType_map_field (tr : TypeNameTransformer) (f : FieldDescriptorProto)
    (file : FileDescriptorProto) (h : IsMapField f = true) :
    GetJsType tr f file = some "any" := by
  obtain ⟨base, hb⟩ := GetBaseJsType_total tr f file
  have hl : f.label = .LABEL_REPEATED := by
    simp only [IsMapField, Bool.and_eq_true, decide_eq_true_eq] at h
    exact h.1.2
  simp [GetJsType, hb, hl, h]

/-- Witness of C6: a repeated field of the entry message `.pkg.Foo.TagsEntry`, with a
transformer that returns a non-empty name for it. -/
theorem GetJsType_map_field_witness :
    IsMapField ⟨"tags", .LABEL_REPEATED, .TYPE_MESSAGE, ".pkg.Foo.TagsEntry"⟩ = true ∧
    GetJsType (some fun _ _ => "TagsEntry")
      ⟨"tags", .LABEL_REPEATED, .TYPE_MESSAGE, ".pkg.Foo.TagsEntry"⟩ a_proto = some "any" :=
  ⟨by decide, GetJsType_map_field _ _ _ (by decide)⟩

/-- C7: for a field that is not a map field, `GetBaseJsType` returns some `base`, and
`GetJsType` is `base ++ "[]"` when the label is repeated and `base` unchanged otherwise. -/
theorem GetJsType_not_map_field (tr : TypeNameTransformer) (f : FieldDescriptorProto)
    (file : FileDescriptorProto) (h : IsMapField f = false) :
    ∃ base, GetBaseJsType tr f file = some base ∧
      (f.label = .LABEL_REPEATED → GetJsType tr f file = some (base ++ "[]")) ∧
      (f.label ≠ .LABEL_REPEATED → GetJsType tr f file = some base) := by
  obtain ⟨base, hb⟩ := GetBaseJsType_total tr f file
  refine ⟨base, hb, ?_, ?_⟩
  · intro hl
    simp [GetJsType, hb, hl, h]
  · intro hl
    simp [GetJsType, hb, hl]

/-- Witness of C7: a repeated `string` field has type `string[]`. -/
theorem GetJsType_not_map_field_witness :
    IsMapField ⟨"names", .LABEL_REPEATED, .TYPE_STRING, ""⟩ = false ∧
    ∃ base, GetBaseJsType none ⟨"names", .LABEL_REPEATED, .TYPE_STRING, ""⟩ a_proto
        = some base ∧
      (FieldDescriptorProto_Label.LABEL_REPEATED = .LABEL_REPEATED →
        GetJsType none ⟨"names", .LABEL_REPEATED, .TYPE_STRING, ""⟩ a_proto
          = some (base ++ "[]")) ∧
      (FieldDescriptorProto_Label.LABEL_REPEATED ≠ .LABEL_REPEATED →
        GetJsType none ⟨"names", .LABEL_REPEATED, .TYPE_STRING, ""⟩ a_proto = some base) :=
  ⟨by decide, GetJsType_not_map_field none ⟨"names", .LABEL_REPEATED, .TYPE_STRING, ""⟩
    a_proto (by decide)⟩

/-- C8: `IsMapField` is true exactly for a repeated message-typed field whose type name
contains `Entry`; so a repeated field of the user message `.pkg.LogEntry` is classified
as a map field, and a singular or enum-typed field never is. -/
theorem IsMapField_iff :
    (∀ f : FieldDescriptorProto, IsMapField f = true ↔
      (f.type = .TYPE_MESSAGE ∧ f.label = .LABEL_REPEATED ∧
        ∃ pre post : String, f.type_name = pre ++ "Entry" ++ post)) ∧
    IsMapField ⟨"logs", .LABEL_REPEATED, .TYPE_MESSAGE, ".pkg.LogEntry"⟩ = true ∧
    (∀ f : FieldDescriptorProto, f.label ≠ .LABEL_REPEATED ∨ f.type = .TYPE_ENUM →
      IsMapField f = false) := by
  refine ⟨?_, by decide, ?_⟩
  · intro f
    simp only [IsMapField, Bool.and_eq_true, decide_eq_true_eq, find_isSome_iff, and_assoc]
  · intro f h
    rcases h with h | h
    · simp [IsMapField, h]
    · simp [IsMapField, h]

/-- Witness of C8: the equivalence at a singular field of type `.pkg.LogEntry`, which is
not a map field. -/
theorem IsMapField_iff_witness :
    IsMapField ⟨"log", .LABEL_OPTIONAL, .TYPE_MESSAGE, ".pkg.LogEntry"⟩ = false :=
  IsMapField_iff.2.2 ⟨"log", .LABEL_OPTIONAL, .TYPE_MESSAGE, ".pkg.LogEntry"⟩
    (Or.inl (by decide))

/-- C9: for an enum- or message-typed field, a transformer that returns a non-empty
string decides the result verbatim; a transformer that returns the empty string gives the
result obtained with no transformer; and for every other kind the result is the same
whatever transformer is installed. -/
theorem GetBaseJsType_transformer :
    (∀ (tr : String → FileDescriptorProto → String) (f : FieldDescriptorProto)
        (file : FileDescriptorProto),
      f.type = .TYPE_ENUM ∨ f.type = .TYPE_MESSAGE → tr f.type_name file ≠ "" →
      GetBaseJsType (some tr) f file = some (tr f.type_name file)) ∧
    (∀ (tr : String → FileDescriptorProto → String) (f : FieldDescriptorProto)
        (file : FileDescriptorProto),
      f.type = .TYPE_ENUM ∨ f.type = .TYPE_MESSAGE → tr f.type_name file = "" →
      GetBaseJsType (some tr) f file = GetBaseJsType none f file) ∧
    (∀ (tr tr' : TypeNameTransformer) (f : FieldDescriptorProto)
        (file : FileDescriptorProto),
      f.type ≠ .TYPE_ENUM → f.type ≠ .TYPE_MESSAGE →
      GetBaseJsType tr f file = GetBaseJsType tr' f file) := by
  refine ⟨?_, ?_, ?_⟩
  · intro tr f file hk hne
    have he : empty (tr f.type_name file) = false := by
      cases h : empty (tr f.type_name file) with
      | false => rfl
      | true => exact absurd ((empty_iff _).mp h) hne
    rcases hk with hk | hk <;> simp [GetBaseJsType, hk, he]
  · intro tr f file hk he
    have he : empty (tr f.type_name file) = true := (empty_iff _).mpr he
    rcases hk with hk | hk <;> simp [GetBaseJsType, hk, he]
  · intro tr tr' f file h1 h2
    cases hf : f.type <;> simp only [hf] at h1 h2 <;> simp [GetBaseJsType, hf] at h1 h2 ⊢

/-- Witness of C9: a transformer that answers `pkg_Foo` decides the type of a field of
message type `.pkg.Foo`. -/
theorem GetBaseJsType_transformer_witness :
    GetBaseJsType (some fun _ _ => "pkg_Foo")
      ⟨"foo", .LABEL_OPTIONAL, .TYPE_MESSAGE, ".pkg.Foo"⟩ b_proto = some "pkg_Foo" :=
  GetBaseJsType_transformer.1 (fun _ _ => "pkg_Foo")
    ⟨"foo", .LABEL_OPTIONAL, .TYPE_MESSAGE, ".pkg.Foo"⟩ b_proto (Or.inr rfl) (by decide)

/-- C10 (as stated, refuted): for the enum `Kind` nested in message `Outer` of package
`pkg`, the enum-typed field gets the simple name `Kind`, while the default naming rule
`GetMessageTypeName` gives the independent class name `__Outer_Kind`. -/
theorem GetBaseJsType_enum_differs_from_message_rule :
    GetBaseJsType none ⟨"kind", .LABEL_OPTIONAL, .TYPE_ENUM, ".pkg.Outer.Kind"⟩
        nested_enum_proto = some "Kind" ∧
    GetMessageTypeName ".pkg.Outer.Kind" nested_enum_proto = some "__Outer_Kind" ∧
    GetBaseJsType none ⟨"kind", .LABEL_OPTIONAL, .TYPE_ENUM, ".pkg.Outer.Kind"⟩
        nested_enum_proto ≠ GetMessageTypeName ".pkg.Outer.Kind" nested_enum_proto := by
  decide

/-- C10 (amended): for every enum-typed field, when no transformer is installed or the
transformer yields the empty string, `GetBaseJsType` returns the last dot-separated
component of the type name, `GetLastComponent f.type_name`: a string `r` without a dot
such that the type name is `r` or ends in `"." ++ r`. `GetMessageTypeName` of the same
name returns that same component, except where it delegates to the independent class
name. -/
theorem GetBaseJsType_enum_fallback (tr : TypeNameTransformer) (f : FieldDescriptorProto)
    (file : FileDescriptorProto) (hty : f.type = .TYPE_ENUM)
    (htr : tr = none ∨ ∃ t, tr = some t ∧ t f.type_name file = "") :
    ∃ r, GetBaseJsType tr f file = some r ∧ GetLastComponent f.type_name = some r ∧
      '.' ∉ r.data ∧ (f.type_name = r ∨ ∃ pre : String, f.type_name = pre ++ "." ++ r) ∧
      (GetMessageTypeName f.type_name file = some r ∨
        GetMessageTypeName f.type_name file
          = GetIndependentClassName f.type_name (some file)) := by
  obtain ⟨r, hr, hnd, hsh⟩ := GetLastComponent_spec f.type_name
  have hb : GetBaseJsType tr f file = GetLastComponent f.type_name := by
    rcases htr with htr | ⟨t, htr, he⟩
    · subst htr
      simp [GetBaseJsType, hty]
    · subst htr
      have he2 : empty (t f.type_name file) = true := (empty_iff _).mpr he
      simp [GetBaseJsType, hty, he2]
  refine ⟨r, hb.trans hr, hr, hnd, hsh, ?_⟩
  rcases GetMessageTypeName_cases f.type_name file with h | h
  · exact Or.inl (h.trans hr)
  · exact Or.inr h

/-- Witness of C10 (amended) at the nested enum `.pkg.Outer.Kind` with a transformer that
yields the empty string: the field type is `Kind`. -/
theorem GetBaseJsType_enum_fallback_witness :
    FieldDescriptorProto_Type.TYPE_ENUM = .TYPE_ENUM ∧
    (fun (_ : String) (_ : FileDescriptorProto) => "") ".pkg.Outer.Kind" nested_enum_proto
      = "" ∧
    GetBaseJsType (some fun _ _ => "")
      ⟨"kind", .LABEL_OPTIONAL, .TYPE_ENUM, ".pkg.Outer.Kind"⟩ nested_enum_proto
      = some "Kind" ∧
    ∃ r, GetBaseJsType (some fun _ _ => "")
          ⟨"kind", .LABEL_OPTIONAL, .TYPE_ENUM, ".pkg.Outer.Kind"⟩ nested_enum_proto
          = some r ∧
      GetLastComponent ".pkg.Outer.Kind" = some r ∧ '.' ∉ r.data ∧
      (".pkg.Outer.Kind" = r ∨ ∃ pre : String, ".pkg.Outer.Kind" = pre ++ "." ++ r) ∧
      (GetMessageTypeName ".pkg.Outer.Kind" nested_enum_proto = some r ∨
        GetMessageTypeName ".pkg.Outer.Kind" nested_enum_proto
          = GetIndependentClassName ".pkg.Outer.Kind" (some nested_enum_proto)) :=
  ⟨rfl, rfl, by decide,
   GetBaseJsType_enum_fallback (some fun _ _ => "")
     ⟨"kind", .LABEL_OPTIONAL, .TYPE_ENUM, ".pkg.Outer.Kind"⟩ nested_enum_proto rfl
     (Or.inr ⟨_, rfl, rfl⟩)⟩

end TypeHelper

/-! ## `TypeResolver::GetRequiredImports` -/

/-- One step of the loop of `GetRequiredImports`. -/
theorem imports_fold_mem (r : TypeResolver) (ns : List String) :
    ∀ (acc : List TypeInfo) (p : TypeInfo),
      p ∈ ns.foldl (fun imports type_name =>
          match r.GetExternalTypeInfo type_name with
          | some info => if info ∈ imports then imports else imports ++ [info]
          | none => imports) acc
        ↔ (p ∈ acc ∨ ∃ n ∈ ns, r.GetExternalTypeInfo n = some p) := by
  induction ns with
  | nil => intro acc p; simp
  | cons n ns ih =>
    intro acc p
    rw [List.foldl_cons, ih]
    cases hn : r.GetExternalTypeInfo n with
    | none => simp [hn]
    | some info =>
      simp only [List.mem_cons, exists_eq_or_imp, hn, Option.some.injEq]
      by_cases hm : info ∈ acc
      · simp only [hm, if_true]
        constructor
        · rintro (h | h)
          · exact Or.inl h
          · exact Or.inr (Or.inr h)
        · rintro (h | h | h)
          · exact Or.inl h
          · exact Or.inl (h ▸ hm)
          · exact Or.inr h
      · simp only [hm, if_false, List.mem_append, List.mem_singleton]
        constructor
        · rintro ((h | h) | h)
          · exact Or.inl h
          · exact Or.inr (Or.inl h.symm)
          · exact Or.inr (Or.inr h)
        · rintro (h | h | h)
          · exact Or.inl (Or.inl h)
          · exact Or.inl (Or.inr h.symm)
          · exact Or.inr h

theorem imports_fold_nodup (r : TypeResolver) (ns : List String) :
    ∀ (acc : List TypeInfo), acc.Nodup →
      (ns.foldl (fun imports type_name =>
          match r.GetExternalTypeInfo type_name with
          | some info => if info ∈ imports then imports else imports ++ [info]
          | none => imports) acc).Nodup := by
  induction ns with
  | nil => intro acc h; simpa using h
  | cons n ns ih =>
    intro acc h
    rw [List.foldl_cons]
    apply ih
    cases hn : r.GetExternalTypeInfo n with
    | none => exact h
    | some info =>
      by_cases hm : info ∈ acc
      · simpa [hm] using h
      · simp only [hm, if_false]
        rw [List.nodup_append]
        refine ⟨h, List.nodup_singleton _, ?_⟩
        intro a ha hb
        rw [List.mem_singleton] at hb
        exact hm (hb ▸ ha)

/-- C3: for every resolver and list of names, whatever the iteration order of the set,
`GetRequiredImports` contains a pair exactly when `GetExternalTypeInfo` returns it for
one of the names, and contains no pair twice. In the two-file scenario, seen from
`b.proto`, the imports of `[".pkg.Foo"]` are exactly `[("a.proto", "Foo")]`, with no entry
for `Bar`. -/
theorem GetRequiredImports_spec (r : TypeResolver)
    (iteration_order : List TypeInfo → List TypeInfo) (ns : List String)
    (horder : ∀ l, (iteration_order l).Perm l) :
    (∀ p, p ∈ r.GetRequiredImports iteration_order ns ↔
      ∃ n ∈ ns, r.GetExternalTypeInfo n = some p) ∧
    (r.GetRequiredImports iteration_order ns).Nodup ∧
    (TypeResolver.new b_proto [a_proto, b_proto]).GetRequiredImports iteration_order
      [".pkg.Foo"] = [("a.proto", "Foo")] ∧
    ∀ file, (file, "Bar") ∉
      (TypeResolver.new b_proto [a_proto, b_proto]).GetRequiredImports iteration_order
        [".pkg.Foo"] := by
  have hex : (TypeResolver.new b_proto [a_proto, b_proto]).GetRequiredImports
      iteration_order [".pkg.Foo"] = [("a.proto", "Foo")] := by
    have h0 : (TypeResolver.new b_proto [a_proto, b_proto]).GetRequiredImports
        iteration_order [".pkg.Foo"] = iteration_order [("a.proto", "Foo")] := by
      have h1 : (TypeResolver.new b_proto [a_proto, b_proto]).GetExternalTypeInfo ".pkg.Foo"
          = some ("a.proto", "Foo") := by decide
      simp [TypeResolver.GetRequiredImports, h1]
    rw [h0]
    exact List.perm_singleton.mp (horder _)
  refine ⟨?_, ?_, hex, ?_⟩
  · intro p
    unfold TypeResolver.GetRequiredImports
    rw [(horder _).mem_iff, imports_fold_mem]
    simp
  · unfold TypeResolver.GetRequiredImports
    rw [(horder _).nodup_iff]
    exact imports_fold_nodup r ns [] List.nodup_nil
  · intro file
    rw [hex]
    simp

/-- Witness of C3: the set iterated in reverse order of insertion, over names that
repeat. -/
theorem GetRequiredImports_spec_witness :
    (∀ l : List TypeInfo, l.reverse.Perm l) ∧
    (TypeResolver.new b_proto [a_proto, b_proto]).GetRequiredImports List.reverse
      [".pkg.Foo", "pkg.Foo.Bar", ".pkg.Baz", ".pkg.Foo"]
      = [("a.proto", "Bar"), ("a.proto", "Foo")] ∧
    ((TypeResolver.new b_proto [a_proto, b_proto]).GetRequiredImports List.reverse
      [".pkg.Foo", "pkg.Foo.Bar", ".pkg.Baz", ".pkg.Foo"]).Nodup :=
  ⟨List.reverse_perm, by decide,
   (GetRequiredImports_spec (TypeResolver.new b_proto [a_proto, b_proto]) List.reverse
      [".pkg.Foo", "pkg.Foo.Bar", ".pkg.Baz", ".pkg.Foo"] List.reverse_perm).2.1⟩

/-! ## `TypeResolver::BuildTypeMap` -/

theorem TypeMap.find_assign (m : TypeMap) (k : String) (v : TypeInfo) (k' : String) :
    (m.assign k v).find k' = if k' = k then some v else m.find k' := by
  by_cases h : k' = k
  · subst h
    simp [TypeMap.assign, TypeMap.find, List.lookup]
  · have hb : (k' == k) = false := by simpa using h
    simp only [TypeMap.assign, TypeMap.find, List.lookup, hb, h, if_false]
    induction m with
    | nil => rfl
    | cons e m ih =>
      obtain ⟨a, b⟩ := e
      by_cases ha : a = k
      · subst ha
        simp [List.filter, List.lookup, hb, ih]
      · have hf : (a != k) = true := by simpa using ha
        simp only [List.filter, hf, List.lookup]
        cases hka : k' == a with
        | true => rfl
        | false => exact ih

theorem TypeMap.assignAll_append (m : TypeMap) (r1 r2 : List (String × TypeInfo)) :
    m.assignAll (r1 ++ r2) = (m.assignAll r1).assignAll r2 := by
  simp [TypeMap.assignAll, List.foldl_append]

theorem TypeMap.find_assignAll_of_not_mem (regs : List (String × TypeInfo)) :
    ∀ (m : TypeMap) (k : String), k ∉ regs.map Prod.fst →
      (m.assignAll regs).find k = m.find k := by
  induction regs with
  | nil => intro m k _; rfl
  | cons e regs ih =>
    intro m k hk
    simp only [List.map_cons, List.mem_cons, not_or] at hk
    have h1 : (m.assignAll (e :: regs)) = (m.assign e.1 e.2).assignAll regs := rfl
    rw [h1, ih _ _ hk.2, TypeMap.find_assign, if_neg hk.1]

theorem TypeMap.find_assignAll_of_mem (regs : List (String × TypeInfo)) :
    ∀ (m : TypeMap) (k : String) (v : TypeInfo), (regs.map Prod.fst).Nodup →
      (k, v) ∈ regs → (m.assignAll regs).find k = some v := by
  induction regs with
  | nil => intro m k v _ h; simp at h
  | cons e regs ih =>
    intro m k v hnd hmem
    simp only [List.map_cons, List.nodup_cons] at hnd
    have h1 : (m.assignAll (e :: regs)) = (m.assign e.1 e.2).assignAll regs := rfl
    rw [h1]
    rcases List.mem_cons.mp hmem with h | h
    · subst h
      rw [TypeMap.find_assignAll_of_not_mem _ _ _ hnd.1, TypeMap.find_assign, if_pos rfl]
    · exact ih _ _ _ hnd.2 h

theorem TypeMap.keys_assignAll (regs : List (String × TypeInfo)) (m : TypeMap) (k : String)
    (hk : k ∈ (m.assignAll regs).keys) : k ∈ m.keys ∨ k ∈ regs.map Prod.fst := by
  by_cases h : k ∈ regs.map Prod.fst
  · exact Or.inr h
  · left
    by_contra hn
    have h1 := (TypeMap.find_eq_none_iff m k).mpr hn
    rw [← TypeMap.find_assignAll_of_not_mem regs m k h] at h1
    exact (TypeMap.find_eq_none_iff _ k).mp h1 hk

theorem RegisterEnum_foldl (enums : List EnumDescriptorProto) (pf : FileDescriptorProto)
    (parent : String) :
    ∀ m : TypeMap,
      enums.foldl (fun m e => TypeResolver.RegisterEnum e pf parent m) m
        = m.assignAll (enums.map fun e =>
            (TypeResolver.GetFullName e.name pf.package parent, (pf.name, e.name))) := by
  induction enums with
  | nil => intro m; rfl
  | cons e enums ih =>
    intro m
    rw [List.foldl_cons, ih]
    rfl

mutual
theorem RegisterMessage_eq : ∀ (message : DescriptorProto) (pf : FileDescriptorProto)
    (parent : String) (m : TypeMap),
    TypeResolver.RegisterMessage message pf parent m
      = m.assignAll (registrationsOfMessage message pf parent)
  | .mk name _ nested enums, pf, parent, m => by
    simp only [TypeResolver.RegisterMessage, registrationsOfMessage]
    rw [RegisterNested_eq nested pf _ _, RegisterEnum_foldl,
      ← TypeMap.assignAll_append]
    rfl
theorem RegisterNested_eq : ∀ (nested : List DescriptorProto) (pf : FileDescriptorProto)
    (parent : String) (m : TypeMap),
    TypeResolver.RegisterNested nested pf parent m
      = m.assignAll (registrationsOfNested nested pf parent)
  | [], _, _, _ => by
    simp only [TypeResolver.RegisterNested, registrationsOfNested]
    rfl
  | d :: ds, pf, parent, m => by
    simp only [TypeResolver.RegisterNested, registrationsOfNested]
    rw [RegisterMessage_eq d pf parent m, RegisterNested_eq ds pf parent _,
      ← TypeMap.assignAll_append]
end

theorem RegisterFile_eq (F : FileDescriptorProto) (m : TypeMap) :
    TypeResolver.RegisterFile F m = m.assignAll (registrationsOfFile F) := by
  simp only [TypeResolver.RegisterFile, registrationsOfFile]
  rw [RegisterNested_eq, RegisterEnum_foldl, ← TypeMap.assignAll_append]

theorem BuildTypeMap_eq (files : List FileDescriptorProto) :
    ∀ m : TypeMap, TypeResolver.BuildTypeMap files m = m.assignAll (registrations files) := by
  induction files with
  | nil => intro m; rfl
  | cons F files ih =>
    intro m
    have h1 : TypeResolver.BuildTypeMap (F :: files) m
        = TypeResolver.BuildTypeMap files (TypeResolver.RegisterFile F m) := rfl
    have h2 : registrations (F :: files) = registrationsOfFile F ++ registrations files := by
      simp [registrations]
    rw [h1, h2, ih, RegisterFile_eq, TypeMap.assignAll_append]

/-! ### The registered names are the qualified names -/

theorem qualifiedName_snoc (p : String) (path : List String) (n : String) :
    qualifiedName p (path ++ [n]) = qualifiedName p path ++ "." ++ n := by
  unfold qualifiedName
  split <;> simp [List.foldl_append]

theorem GetFullName_top (n p : String) :
    TypeResolver.GetFullName n p "" = qualifiedName p [n] := by
  unfold TypeResolver.GetFullName qualifiedName
  have h0 : empty "" = true := rfl
  cases hp : empty p <;> simp [h0, String.ext_iff, String.data_append]

theorem GetFullName_nested (n p parent : String) (h : empty parent = false) :
    TypeResolver.GetFullName n p parent = parent ++ "." ++ n := by
  simp [TypeResolver.GetFullName, h]

theorem GetFullName_not_empty (n p parent : String) :
    empty (TypeResolver.GetFullName n p parent) = false := by
  unfold TypeResolver.GetFullName
  split
  · simp [empty, String.data_append]
  · split <;> simp [empty, String.data_append]

/-- The invariant of the traversal: the accumulated parent name is the qualified name of
the path of the enclosing messages. -/
theorem GetFullName_step (pkg parent : String) (path : List String)
    (h : ∀ n, TypeResolver.GetFullName n pkg parent = qualifiedName pkg (path ++ [n]))
    (n0 : String) :
    ∀ n, TypeResolver.GetFullName n pkg (TypeResolver.GetFullName n0 pkg parent)
      = qualifiedName pkg ((path ++ [n0]) ++ [n]) := by
  intro n
  rw [GetFullName_nested _ _ _ (GetFullName_not_empty _ _ _), h n0,
    qualifiedName_snoc pkg (path ++ [n0]) n]

mutual
theorem registrationsOfMessage_eq : ∀ (message : DescriptorProto) (pf : FileDescriptorProto)
    (parent : String) (path : List String),
    (∀ n, TypeResolver.GetFullName n pf.package parent
      = qualifiedName pf.package (path ++ [n])) →
    registrationsOfMessage message pf parent
      = (messageTypes message).map fun d =>
          (qualifiedName pf.package (path ++ d.1), (pf.name, d.2))
  | .mk name _ nested enums, pf, parent, path, h => by
    have h2 := GetFullName_step pf.package parent path h name
    simp only [registrationsOfMessage, messageTypes]
    rw [registrationsOfNested_eq nested pf _ (path ++ [name]) h2]
    have h3 : ∀ n, TypeResolver.GetFullName n pf.package
        (qualifiedName pf.package (path ++ [name]))
        = qualifiedName pf.package (path ++ [name, n]) := by
      intro n
      have := h2 n
      rw [h name] at this
      simpa using this
    simp only [h3, h name, List.map_cons, List.map_append, List.map_map, Function.comp_def,
      List.append_assoc, List.singleton_append]
theorem registrationsOfNested_eq : ∀ (nested : List DescriptorProto)
    (pf : FileDescriptorProto) (parent : String) (path : List String),
    (∀ n, TypeResolver.GetFullName n pf.package parent
      = qualifiedName pf.package (path ++ [n])) →
    registrationsOfNested nested pf parent
      = (messagesTypes nested).map fun d =>
          (qualifiedName pf.package (path ++ d.1), (pf.name, d.2))
  | [], _, _, _, _ => by
    simp only [registrationsOfNested, messagesTypes, List.map_nil]
  | d :: ds, pf, parent, path, h => by
    simp only [registrationsOfNested, messagesTypes, List.map_append]
    rw [registrationsOfMessage_eq d pf parent path h,
      registrationsOfNested_eq ds pf parent path h]
end

theorem registrationsOfFile_eq (F : FileDescriptorProto) :
    registrationsOfFile F
      = (fileTypes F).map fun d => (qualifiedName F.package d.1, (F.name, d.2)) := by
  have h : ∀ n, TypeResolver.GetFullName n F.package ""
      = qualifiedName F.package ([] ++ [n]) := fun n => GetFullName_top n F.package
  simp only [registrationsOfFile, fileTypes, List.map_append, List.map_map,
    Function.comp_def, GetFullName_top]
  rw [registrationsOfNested_eq F.message_type F "" [] h]
  simp only [List.nil_append]

theorem registrations_keys (files : List FileDescriptorProto) :
    (registrations files).map Prod.fst = unitTypeNames files := by
  induction files with
  | nil => rfl
  | cons F files ih =>
    simp only [registrations, unitTypeNames, List.flatMap_cons, List.map_append] at ih ⊢
    rw [ih, registrationsOfFile_eq]
    simp only [List.map_map, Function.comp_def]

theorem mem_registrations_iff (files : List FileDescriptorProto) (k : String)
    (v : TypeInfo) :
    (k, v) ∈ registrations files ↔
      ∃ F ∈ files, ∃ d ∈ fileTypes F, k = qualifiedName F.package d.1 ∧ v = (F.name, d.2) := by
  simp only [registrations, List.mem_flatMap, registrationsOfFile_eq, List.mem_map,
    Prod.mk.injEq]
  constructor
  · rintro ⟨F, hF, d, hd, h1, h2⟩
    exact ⟨F, hF, d, hd, h1.symm, h2.symm⟩
  · rintro ⟨F, hF, d, hd, h1, h2⟩
    exact ⟨F, hF, d, hd, h1.symm, h2.symm⟩

/-! ### The declared types are the types reached by a nesting path -/

theorem MessageAt.mono {ms ms' : List DescriptorProto} {path : List String}
    {m : DescriptorProto} (h : MessageAt ms path m) (hsub : ∀ x ∈ ms, x ∈ ms') :
    MessageAt ms' path m := by
  cases h with
  | here hm => exact MessageAt.here (hsub _ hm)
  | nested ho hn => exact MessageAt.nested (hsub _ ho) hn

theorem MessageAt.last {ms : List DescriptorProto} {path : List String}
    {m : DescriptorProto} (h : MessageAt ms path m) : path.getLast? = some m.name := by
  induction h with
  | here _ => rfl
  | nested _ hn ih =>
    cases hn with
    | here _ => rfl
    | nested _ _ => simpa [List.getLast?_cons_cons] using ih

theorem mem_messagesTypes_of_mem {ms : List DescriptorProto} {m : DescriptorProto}
    {d : List String × String} (hm : m ∈ ms) (hd : d ∈ messageTypes m) :
    d ∈ messagesTypes ms := by
  induction ms with
  | nil => simp at hm
  | cons x xs ih =>
    simp only [messagesTypes, List.mem_append]
    rcases List.mem_cons.mp hm with h | h
    · subst h; exact Or.inl hd
    · exact Or.inr (ih h)

theorem messageTypes_self (m : DescriptorProto) : ([m.name], m.name) ∈ messageTypes m := by
  cases m with
  | mk name f nested enums => simp [messageTypes, DescriptorProto.name]

theorem messageTypes_nested (m : DescriptorProto) (d : List String × String)
    (hd : d ∈ messagesTypes m.nested_type) : (m.name :: d.1, d.2) ∈ messageTypes m := by
  cases m with
  | mk name f nested enums =>
    simp only [messageTypes, DescriptorProto.name, List.mem_cons, List.mem_map,
      List.mem_append]
    exact Or.inr ⟨d, Or.inl hd, rfl⟩

theorem messageTypes_enum (m : DescriptorProto) (e : EnumDescriptorProto)
    (he : e ∈ m.enum_type) : ([m.name, e.name], e.name) ∈ messageTypes m := by
  cases m with
  | mk name f nested enums =>
    simp only [messageTypes, DescriptorProto.name, List.mem_cons, List.mem_map,
      List.mem_append]
    exact Or.inr ⟨([e.name], e.name), Or.inr ⟨e, he, rfl⟩, rfl⟩

theorem MessageAt.mem_messagesTypes {ms : List DescriptorProto} {path : List String}
    {m : DescriptorProto} (h : MessageAt ms path m) : (path, m.name) ∈ messagesTypes ms := by
  induction h with
  | here hm => exact mem_messagesTypes_of_mem hm (messageTypes_self _)
  | nested ho _ ih => exact mem_messagesTypes_of_mem ho (messageTypes_nested _ _ ih)

theorem MessageAt.enum_mem_messagesTypes {ms : List DescriptorProto} {path : List String}
    {m : DescriptorProto} (h : MessageAt ms path m) (e : EnumDescriptorProto)
    (he : e ∈ m.enum_type) : (path ++ [e.name], e.name) ∈ messagesTypes ms := by
  induction h with
  | here hm => exact mem_messagesTypes_of_mem hm (messageTypes_enum _ e he)
  | nested ho _ ih => exact mem_messagesTypes_of_mem ho (messageTypes_nested _ _ (ih he))

mutual
theorem messageTypes_reached : ∀ (m : DescriptorProto) (d : List String × String),
    d ∈ messageTypes m →
    (∃ m', MessageAt [m] d.1 m' ∧ d.2 = m'.name) ∨
    (∃ path m' e, MessageAt [m] path m' ∧ e ∈ m'.enum_type ∧
      d.1 = path ++ [e.name] ∧ d.2 = e.name)
  | .mk name f nested enums, d, hd => by
    have hself : DescriptorProto.mk name f nested enums ∈ [DescriptorProto.mk name f nested enums] :=
      List.mem_singleton.mpr rfl
    simp only [messageTypes, List.mem_cons, List.mem_map, List.mem_append] at hd
    rcases hd with hd | ⟨d', hd' | ⟨e, he, hde⟩, hdd⟩
    · subst hd
      exact Or.inl ⟨_, MessageAt.here hself, rfl⟩
    · subst hdd
      rcases messagesTypes_reached nested d' hd' with ⟨m', hm', hn⟩ | ⟨path, m', e, hm', he, h1, h2⟩
      · exact Or.inl ⟨m', MessageAt.nested hself hm', hn⟩
      · refine Or.inr ⟨name :: path, m', e, MessageAt.nested hself hm', he, ?_, h2⟩
        simp only [h1, List.cons_append]
    · subst hdd
      subst hde
      exact Or.inr ⟨[name], _, e, MessageAt.here hself, he, rfl, rfl⟩
theorem messagesTypes_reached : ∀ (ms : List DescriptorProto) (d : List String × String),
    d ∈ messagesTypes ms →
    (∃ m', MessageAt ms d.1 m' ∧ d.2 = m'.name) ∨
    (∃ path m' e, MessageAt ms path m' ∧ e ∈ m'.enum_type ∧
      d.1 = path ++ [e.name] ∧ d.2 = e.name)
  | [], d, hd => by simp [messagesTypes] at hd
  | m :: ms, d, hd => by
    simp only [messagesTypes, List.mem_append] at hd
    rcases hd with hd | hd
    · have hsub : ∀ x ∈ [m], x ∈ m :: ms := by
        intro x hx
        rw [List.mem_singleton.mp hx]
        exact List.mem_cons_self _ _
      rcases messageTypes_reached m d hd with ⟨m', hm', hn⟩ | ⟨path, m', e, hm', he, h1, h2⟩
      · exact Or.inl ⟨m', hm'.mono hsub, hn⟩
      · exact Or.inr ⟨path, m', e, hm'.mono hsub, he, h1, h2⟩
    · have hsub : ∀ x ∈ ms, x ∈ m :: ms := fun x hx => List.mem_cons_of_mem _ hx
      rcases messagesTypes_reached ms d hd with ⟨m', hm', hn⟩ | ⟨path, m', e, hm', he, h1, h2⟩
      · exact Or.inl ⟨m', hm'.mono hsub, hn⟩
      · exact Or.inr ⟨path, m', e, hm'.mono hsub, he, h1, h2⟩
end

/-- C2: in a compilation unit whose fully-qualified type names are pairwise distinct, the
index built by `BuildTypeMap` maps the qualified name of every message reached by a
nesting path `n1, ..., nk` of a file `F` to `(F.name, nk)`, maps the qualified name of
every top-level or nested enum to `(F.name, its name)`, and has no other keys; every
assignment `type_map_[full_name] = info` made during the construction is found again
under the string `full_name` that `GetFullName` produced for it. -/
theorem BuildTypeMap_index (files : List FileDescriptorProto)
    (hdistinct : (unitTypeNames files).Nodup) :
    (∀ F ∈ files, ∀ path m, MessageAt F.message_type path m →
      path.getLast? = some m.name ∧
      (TypeResolver.BuildTypeMap files []).find (qualifiedName F.package path)
        = some (F.name, m.name)) ∧
    (∀ F ∈ files, ∀ e ∈ F.enum_type,
      (TypeResolver.BuildTypeMap files []).find (qualifiedName F.package [e.name])
        = some (F.name, e.name)) ∧
    (∀ F ∈ files, ∀ path m, MessageAt F.message_type path m → ∀ e ∈ m.enum_type,
      (TypeResolver.BuildTypeMap files []).find (qualifiedName F.package (path ++ [e.name]))
        = some (F.name, e.name)) ∧
    (∀ k ∈ (TypeResolver.BuildTypeMap files []).keys,
      ∃ F ∈ files, ∃ path, k = qualifiedName F.package path ∧
        ((∃ m, MessageAt F.message_type path m) ∨
         (∃ e ∈ F.enum_type, path = [e.name]) ∨
         (∃ path' m e, MessageAt F.message_type path' m ∧ e ∈ m.enum_type ∧
            path = path' ++ [e.name]))) ∧
    (∀ reg ∈ registrations files,
      (TypeResolver.BuildTypeMap files []).find reg.1 = some reg.2) := by
  have hidx := BuildTypeMap_eq files []
  have hnd : ((registrations files).map Prod.fst).Nodup := by
    rw [registrations_keys]; exact hdistinct
  have hfind : ∀ F ∈ files, ∀ d ∈ fileTypes F,
      (TypeResolver.BuildTypeMap files []).find (qualifiedName F.package d.1)
        = some (F.name, d.2) := by
    intro F hF d hd
    rw [hidx]
    exact TypeMap.find_assignAll_of_mem _ _ _ _ hnd
      ((mem_registrations_iff files _ _).mpr ⟨F, hF, d, hd, rfl, rfl⟩)
  refine ⟨?_, ?_, ?_, ?_, ?_⟩
  · intro F hF path m hm
    exact ⟨hm.last, hfind F hF (path, m.name)
      (List.mem_append.mpr (Or.inl hm.mem_messagesTypes))⟩
  · intro F hF e he
    exact hfind F hF ([e.name], e.name)
      (List.mem_append.mpr (Or.inr (List.mem_map.mpr ⟨e, he, rfl⟩)))
  · intro F hF path m hm e he
    exact hfind F hF (path ++ [e.name], e.name)
      (List.mem_append.mpr (Or.inl (hm.enum_mem_messagesTypes e he)))
  · intro k hk
    rw [hidx] at hk
    rcases TypeMap.keys_assignAll _ _ _ hk with h | h
    · simp [TypeMap.keys] at h
    · obtain ⟨⟨k', v⟩, hreg, hk'⟩ := List.mem_map.mp h
      simp only at hk'
      subst hk'
      obtain ⟨F, hF, d, hd, h1, _⟩ := (mem_registrations_iff files _ _).mp hreg
      refine ⟨F, hF, d.1, h1, ?_⟩
      rcases List.mem_append.mp hd with hd | hd
      · rcases messagesTypes_reached _ d hd with ⟨m, hm, _⟩ | ⟨path, m, e, hm, he, h3, _⟩
        · exact Or.inl ⟨m, hm⟩
        · exact Or.inr (Or.inr ⟨path, m, e, hm, he, h3⟩)
      · obtain ⟨e, he, hde⟩ := List.mem_map.mp hd
        subst hde
        exact Or.inr (Or.inl ⟨e, he, rfl⟩)
  · intro reg hreg
    rw [hidx]
    exact TypeMap.find_assignAll_of_mem _ _ _ _ hnd hreg

/-- Witness of C2 on `deep_unit`: its names are pairwise distinct, and message `C`, reached
by the path `A`, `B`, `C` in the file of package `p.q`, is found under `.p.q.A.B.C`. -/
theorem BuildTypeMap_index_witness :
    (unitTypeNames deep_unit).Nodup ∧
    qualifiedName deep_x_proto.package ["A", "B", "C"] = ".p.q.A.B.C" ∧
    (TypeResolver.BuildTypeMap deep_unit []).find
        (qualifiedName deep_x_proto.package ["A", "B", "C"]) = some ("x.proto", "C") :=
  ⟨by decide, by decide,
    ((BuildTypeMap_index deep_unit (by decide)).1 deep_x_proto (List.Mem.head _)
      ["A", "B", "C"] deep_C
      (@MessageAt.nested [deep_A] deep_A deep_C ["B", "C"] (List.Mem.head _)
        (@MessageAt.nested deep_A.nested_type deep_B deep_C ["C"] (List.Mem.head _)
          (@MessageAt.here deep_B.nested_type deep_C (List.Mem.head _))))).2⟩

/-! ## The naming rules of `TypeHelper` -/

theorem empty_eq_false_iff (s : String) : empty s = false ↔ s ≠ "" := by
  have h := empty_iff s
  cases he : empty s with
  | false =>
    rw [he] at h
    simp only [true_iff]
    intro hs
    exact Bool.noConfusion (h.mpr hs)
  | true =>
    rw [he] at h
    simp only [reduceCtorEq, false_iff, ne_eq, not_not]
    exact h.mp rfl

theorem find_dot_iff (s : String) : find s "." ≠ none ↔ '.' ∈ s.data := by
  rw [← Option.isSome_iff_ne_none, find_isSome_iff]
  constructor
  · rintro ⟨pre, post, h⟩
    subst h
    simp [String.data_append]
  · intro h
    obtain ⟨a, b, hab⟩ := List.append_of_mem h
    refine ⟨String.mk a, String.mk b, ?_⟩
    rw [String.ext_iff]
    simp [String.data_append, hab]

theorem find_package_iff (s p : String) :
    find s (p ++ ".") = some 0 ↔ ∃ rem : String, s = p ++ "." ++ rem := by
  rw [find_zero_iff]
  constructor
  · rintro ⟨r, hr⟩
    refine ⟨String.mk r, ?_⟩
    rw [String.ext_iff]
    simp [String.data_append, ← hr]
  · rintro ⟨rem, h⟩
    exact ⟨rem.data, by simp [h, String.data_append]⟩

theorem substr_package (p rem : String) :
    substr (p ++ "." ++ rem) (p.length + 1) = some rem := by
  have hd : (p ++ "." ++ rem).data = (p.data ++ ['.']) ++ rem.data := by
    simp [String.data_append]
  have hl : (p.data ++ ['.']).length = p.length + 1 := by
    rw [List.length_append, List.length_singleton]
    rfl
  have hle : p.length + 1 ≤ (p ++ "." ++ rem).data.length := by
    rw [hd, List.length_append, hl]
    exact Nat.le_add_right _ _
  rw [substr_of_le hle, hd, List.drop_left' hl]

theorem append_dot_cancel (p a b : String) (h : p ++ "." ++ a = p ++ "." ++ b) : a = b := by
  rw [String.ext_iff] at h ⊢
  simpa [String.data_append] using h

namespace TypeHelper

theorem GetMessageTypeName_of_nested (t : String) (file : FileDescriptorProto) (rem : String)
    (hp : file.package ≠ "") (hs : stripLeadingDot t = file.package ++ "." ++ rem)
    (hd : '.' ∈ rem.data) :
    GetMessageTypeName t file = GetIndependentClassName t (some file) := by
  have he : empty file.package = false := (empty_eq_false_iff _).mpr hp
  have hc : (!empty file.package) = true ∧
      find (stripLeadingDot t) (file.package ++ ".") = some 0 :=
    ⟨by simp [he], (find_package_iff _ _).mpr ⟨rem, hs⟩⟩
  unfold GetMessageTypeName
  rw [strip_step]
  simp only [Option.some_bind]
  rw [if_pos hc, hs, substr_package]
  simp only [Option.some_bind]
  rw [if_pos ((find_dot_iff rem).mpr hd)]

theorem GetMessageTypeName_of_not_nested (t : String) (file : FileDescriptorProto)
    (h : ¬ (file.package ≠ "" ∧
      ∃ rem : String, stripLeadingDot t = file.package ++ "." ++ rem ∧ '.' ∈ rem.data)) :
    GetMessageTypeName t file = GetLastComponent (stripLeadingDot t) := by
  unfold GetMessageTypeName
  rw [strip_step]
  simp only [Option.some_bind]
  by_cases hc : (!empty file.package) = true ∧
      find (stripLeadingDot t) (file.package ++ ".") = some 0
  · rw [if_pos hc]
    obtain ⟨rem, hrem⟩ := (find_package_iff _ _).mp hc.2
    have hp : file.package ≠ "" := by
      apply (empty_eq_false_iff _).mp
      simpa using hc.1
    have hnd : ¬ find rem "." ≠ none := by
      intro hd
      exact h ⟨hp, rem, hrem, (find_dot_iff rem).mp hd⟩
    rw [hrem, substr_package]
    simp only [Option.some_bind]
    rw [if_neg hnd]
  · rw [if_neg hc]

/-- C11: with `s` the name `t` without its leading dot and `p` the package of the file,
`GetMessageTypeName t file` is `GetIndependentClassName t file` when `p` is not empty,
`s` starts with `p ++ "."` and the rest of `s` contains a dot; in every other case it is
the part of `s` after its last dot (all of `s` when it has none). For `.pkg.Foo` in a
file of package `pkg` it is `Foo`. -/
theorem GetMessageTypeName_spec (t : String) (file : FileDescriptorProto) :
    (∀ rem : String, file.package ≠ "" → stripLeadingDot t = file.package ++ "." ++ rem →
      '.' ∈ rem.data →
      GetMessageTypeName t file = GetIndependentClassName t (some file)) ∧
    (¬ (file.package ≠ "" ∧
        ∃ rem : String, stripLeadingDot t = file.package ++ "." ++ rem ∧ '.' ∈ rem.data) →
      ∃ r, GetMessageTypeName t file = some r ∧ '.' ∉ r.data ∧
        (stripLeadingDot t = r ∨ ∃ pre : String, stripLeadingDot t = pre ++ "." ++ r)) ∧
    GetMessageTypeName ".pkg.Foo" a_proto = some "Foo" := by
  refine ⟨?_, ?_, by decide⟩
  · intro rem hp hs hd
    exact GetMessageTypeName_of_nested t file rem hp hs hd
  · intro h
    obtain ⟨r, hr, hnd, hsh⟩ := GetLastComponent_spec (stripLeadingDot t)
    exact ⟨r, (GetMessageTypeName_of_not_nested t file h).trans hr, hnd, hsh⟩

/-- Witness of C11: the nested name `.pkg.Outer.Inner` in a file of package `pkg` gets its
independent class name. -/
theorem GetMessageTypeName_spec_witness :
    nested_message_proto.package ≠ "" ∧
    stripLeadingDot ".pkg.Outer.Inner" = nested_message_proto.package ++ "." ++ "Outer.Inner" ∧
    '.' ∈ "Outer.Inner".data ∧
    GetMessageTypeName ".pkg.Outer.Inner" nested_message_proto
      = GetIndependentClassName ".pkg.Outer.Inner" (some nested_message_proto) :=
  ⟨by decide, by decide, by decide,
   (GetMessageTypeName_spec ".pkg.Outer.Inner" nested_message_proto).1 "Outer.Inner"
     (by decide) (by decide) (by decide)⟩

theorem length_append_dot (p : String) : (p ++ ".").length = p.length + 1 := by
  show (p ++ ".").data.length = p.data.length + 1
  simp [String.data_append]

theorem stripLeadingDot_dot_append (x : String) : stripLeadingDot ("." ++ x) = x := by
  rw [stripLeadingDot, if_pos (front_dot_append x)]
  simp [String.data_append]

theorem GetIndependentClassName_of_package (t : String) (f : FileDescriptorProto)
    (u : String) (hp : f.package ≠ "")
    (hs : stripLeadingDot t = f.package ++ "." ++ u) :
    GetIndependentClassName t (some f)
      = some ("__" ++ String.mk (u.data.map fun c => if c = '.' then '_' else c)) := by
  have he : (!empty f.package) = true := by simp [(empty_eq_false_iff _).mpr hp]
  have hf : find (stripLeadingDot t) (f.package ++ ".") = some 0 :=
    (find_package_iff _ _).mpr ⟨u, hs⟩
  unfold GetIndependentClassName
  rw [strip_step]
  simp only [Option.some_bind]
  rw [if_pos he, if_pos hf, hs, length_append_dot, substr_package]
  rfl

theorem GetIndependentClassName_of_no_package (t : String)
    (pf : Option FileDescriptorProto)
    (h : ¬ ∃ f, pf = some f ∧ f.package ≠ "" ∧
      ∃ rem : String, stripLeadingDot t = f.package ++ "." ++ rem) :
    GetIndependentClassName t pf
      = some ("__" ++
          String.mk ((stripLeadingDot t).data.map fun c => if c = '.' then '_' else c)) := by
  unfold GetIndependentClassName
  rw [strip_step]
  simp only [Option.some_bind]
  cases pf with
  | none => rfl
  | some f =>
    simp only
    by_cases he : (!empty f.package) = true
    · have hp : f.package ≠ "" := by
        apply (empty_eq_false_iff _).mp
        simpa using he
      have hf : ¬ find (stripLeadingDot t) (f.package ++ ".") = some 0 := by
        intro hf
        exact h ⟨f, rfl, hp, (find_package_iff _ _).mp hf⟩
      rw [if_pos he, if_neg hf]
      rfl
    · rw [if_neg he]
      rfl

theorem replaced_dots_no_dot (l : List Char) :
    '.' ∉ ("__" ++ String.mk (l.map fun c => if c = '.' then '_' else c)).data := by
  simp only [String.data_append, List.mem_append, List.mem_map, not_or, not_exists, not_and]
  refine ⟨by decide, ?_⟩
  intro c _ hc
  by_cases h : c = '.'
  · simp [h] at hc
  · simp [h] at hc

/-- The result of `GetIndependentClassName` is `__` followed by the name, cut as the
function cuts it, with its dots replaced. -/
theorem GetIndependentClassName_shape (t : String) (pf : Option FileDescriptorProto) :
    ∃ u : String,
      ((∃ f, pf = some f ∧ f.package ≠ "" ∧ stripLeadingDot t = f.package ++ "." ++ u) ∨
       (u = stripLeadingDot t ∧
        ¬ ∃ f, pf = some f ∧ f.package ≠ "" ∧
          ∃ rem : String, stripLeadingDot t = f.package ++ "." ++ rem)) ∧
      GetIndependentClassName t pf
        = some ("__" ++ String.mk (u.data.map fun c => if c = '.' then '_' else c)) := by
  by_cases h : ∃ f, pf = some f ∧ f.package ≠ "" ∧
      ∃ rem : String, stripLeadingDot t = f.package ++ "." ++ rem
  · obtain ⟨f, hf, hp, rem, hrem⟩ := h
    subst hf
    exact ⟨rem, Or.inl ⟨f, rfl, hp, hrem⟩, GetIndependentClassName_of_package t f rem hp hrem⟩
  · exact ⟨_, Or.inr ⟨rfl, h⟩, GetIndependentClassName_of_no_package t pf h⟩

/-- C12: `GetIndependentClassName t file` is `"__" ++ u'`, where `u` is `t` without its
leading dot and without the start `package ++ "."` when a file with a non-empty package
is supplied and the name starts so, and `u'` is `u` with every dot replaced by an
underscore; the result starts with `__` and contains no dot. For `.pkg.Outer.Inner` in
package `pkg` it is `__Outer_Inner`. -/
theorem GetIndependentClassName_spec (t : String) (pf : Option FileDescriptorProto) :
    (∃ u : String,
      ((∃ f, pf = some f ∧ f.package ≠ "" ∧ stripLeadingDot t = f.package ++ "." ++ u) ∨
       (u = stripLeadingDot t ∧
        ¬ ∃ f, pf = some f ∧ f.package ≠ "" ∧
          ∃ rem : String, stripLeadingDot t = f.package ++ "." ++ rem)) ∧
      GetIndependentClassName t pf
        = some ("__" ++ String.mk (u.data.map fun c => if c = '.' then '_' else c))) ∧
    (∃ r rest : String, GetIndependentClassName t pf = some r ∧ r = "__" ++ rest ∧
      '.' ∉ r.data) ∧
    GetIndependentClassName ".pkg.Outer.Inner" (some nested_message_proto)
      = some "__Outer_Inner" := by
  have h1 := GetIndependentClassName_shape t pf
  refine ⟨h1, ?_, by decide⟩
  obtain ⟨u, _, hu⟩ := h1
  exact ⟨_, _, hu, rfl, replaced_dots_no_dot _⟩

/-- Witness of C12: the name `pkg.Outer.Inner`, written without a leading dot, with the
file of package `pkg` supplied. -/
theorem GetIndependentClassName_spec_witness :
    ∃ r rest : String,
      GetIndependentClassName "pkg.Outer.Inner" (some nested_message_proto) = some r ∧
      r = "__" ++ rest ∧ '.' ∉ r.data :=
  (GetIndependentClassName_spec "pkg.Outer.Inner" (some nested_message_proto)).2.1

theorem replace_dots_injective :
    ∀ l1 l2 : List Char, '_' ∉ l1 → '_' ∉ l2 →
      (l1.map fun c => if c = '.' then '_' else c)
        = (l2.map fun c => if c = '.' then '_' else c) → l1 = l2 := by
  intro l1
  induction l1 with
  | nil =>
    intro l2 _ _ h
    cases l2 with
    | nil => rfl
    | cons b bs => simp at h
  | cons a as ih =>
    intro l2 h1 h2 h
    cases l2 with
    | nil => simp at h
    | cons b bs =>
      simp only [List.map_cons, List.cons.injEq] at h
      simp only [List.mem_cons, not_or] at h1 h2
      have hab : a = b := by
        have h0 := h.1
        by_cases ha : a = '.' <;> by_cases hb : b = '.'
        · rw [ha, hb]
        · simp only [ha, hb, if_true, if_false] at h0
          exact absurd h0 h2.1
        · simp only [ha, hb, if_true, if_false] at h0
          exact absurd h0.symm h1.1
        · simpa [ha, hb] using h0
      rw [hab, ih bs h1.2 h2.2 h.2]

theorem GetIndependentClassName_of_base (file : FileDescriptorProto) (rem : String) :
    GetIndependentClassName (typeNameBase file ++ rem) (some file)
      = some ("__" ++ String.mk (rem.data.map fun c => if c = '.' then '_' else c)) := by
  unfold typeNameBase
  cases he : empty file.package with
  | true =>
    have hp : file.package = "" := (empty_iff _).mp he
    have hn : ¬ ∃ f, some file = some f ∧ f.package ≠ "" ∧
        ∃ r : String, stripLeadingDot ("." ++ rem) = f.package ++ "." ++ r := by
      rintro ⟨f, hf, hne, _⟩
      simp only [Option.some.injEq] at hf
      subst hf
      exact hne hp
    simp only [if_true]
    rw [GetIndependentClassName_of_no_package _ _ hn, stripLeadingDot_dot_append]
  | false =>
    have hp : file.package ≠ "" := (empty_eq_false_iff _).mp he
    have hs : stripLeadingDot ("." ++ file.package ++ "." ++ rem)
        = file.package ++ "." ++ rem := by
      rw [String.append_assoc, String.append_assoc, stripLeadingDot_dot_append,
        String.append_assoc]
    simp only [Bool.false_eq_true, if_false]
    exact GetIndependentClassName_of_package _ file rem hp hs

/-- C19 (as stated, refuted): in package `pkg` the distinct nested types `.pkg.A.B_C` and
`.pkg.A_B.C` get the same independent class name `__A_B_C`, and the nested type
`.pkg.Outer.Inner` gets the name of the top-level message `__Outer_Inner` of the same
file; the names of the file are pairwise distinct. -/
theorem GetIndependentClassName_collision :
    (unitTypeNames [collision_proto]).Nodup ∧
    ".pkg.A.B_C" ≠ ".pkg.A_B.C" ∧
    GetIndependentClassName ".pkg.A.B_C" (some collision_proto) = some "__A_B_C" ∧
    GetIndependentClassName ".pkg.A_B.C" (some collision_proto) = some "__A_B_C" ∧
    GetIndependentClassName ".pkg.Outer.Inner" (some collision_proto)
      = some "__Outer_Inner" ∧
    GetMessageTypeName ".pkg.__Outer_Inner" collision_proto = some "__Outer_Inner" ∧
    (TypeResolver.BuildTypeMap [collision_proto] []).find ".pkg.__Outer_Inner"
      = some ("collision.proto", "__Outer_Inner") := by
  decide

/-- C19 (amended): for two names of the file, `typeNameBase file ++ rem1` and
`typeNameBase file ++ rem2`, whose parts `rem1 ≠ rem2` after the package contain no
underscore, the independent class names differ; every independent class name starts with
`__`, so that it differs from every name that does not start with `__`. -/
theorem GetIndependentClassName_injective (file : FileDescriptorProto) (rem1 rem2 : String)
    (hne : rem1 ≠ rem2) (h1 : '_' ∉ rem1.data) (h2 : '_' ∉ rem2.data) :
    GetIndependentClassName (typeNameBase file ++ rem1) (some file)
      ≠ GetIndependentClassName (typeNameBase file ++ rem2) (some file) ∧
    (∀ (t : String) (pf : Option FileDescriptorProto),
      ∃ rest : String, GetIndependentClassName t pf = some ("__" ++ rest)) ∧
    (∀ (t : String) (pf : Option FileDescriptorProto) (name : String),
      (¬ ∃ rest : String, name = "__" ++ rest) →
      GetIndependentClassName t pf ≠ some name) := by
  have hall : ∀ (t : String) (pf : Option FileDescriptorProto),
      ∃ rest : String, GetIndependentClassName t pf = some ("__" ++ rest) := by
    intro t pf
    obtain ⟨u, _, hu⟩ := GetIndependentClassName_shape t pf
    exact ⟨_, hu⟩
  refine ⟨?_, hall, ?_⟩
  · rw [GetIndependentClassName_of_base, GetIndependentClassName_of_base]
    intro h
    simp only [Option.some.injEq, String.ext_iff, String.data_append,
      List.append_cancel_left_eq] at h
    exact hne (String.ext_iff.mpr (replace_dots_injective _ _ h1 h2 h))
  · intro t pf name hn h
    obtain ⟨rest, hr⟩ := hall t pf
    rw [hr] at h
    exact hn ⟨rest, (Option.some.inj h).symm⟩

/-- Witness of C19 (amended): the nested types `.pkg.A.B` and `.pkg.A.C`. -/
theorem GetIndependentClassName_injective_witness :
    "A.B" ≠ "A.C" ∧ '_' ∉ "A.B".data ∧ '_' ∉ "A.C".data ∧
    typeNameBase collision_proto ++ "A.B" = ".pkg.A.B" ∧
    GetIndependentClassName (typeNameBase collision_proto ++ "A.B") (some collision_proto)
      ≠ GetIndependentClassName (typeNameBase collision_proto ++ "A.C")
          (some collision_proto) :=
  ⟨by decide, by decide, by decide, by decide,
   (GetIndependentClassName_injective collision_proto "A.B" "A.C" (by decide) (by decide)
      (by decide)).1⟩

end TypeHelper

/-! ## `SplitString`, `SnakeToPascalCase` and `SnakeToCamelCase` -/

theorem splitOnP_takeWhile (p : Char → Bool) : ∀ l : List Char,
    l.splitOnP p = l.takeWhile (fun c => !p c) ::
      (match l.dropWhile (fun c => !p c) with
       | [] => []
       | _ :: rest => rest.splitOnP p)
  | [] => by simp [List.splitOnP_nil]
  | x :: xs => by
    rw [List.splitOnP_cons]
    by_cases hx : p x = true
    · simp [hx]
    · rw [if_neg hx, splitOnP_takeWhile p xs]
      simp [hx, List.modifyHead]

theorem splitOn_filter_step (d : Char) (l : List Char) :
    (l.splitOn d).filter (fun seg => !seg.isEmpty)
      = ((l.takeWhile fun c => c != d) ::
          ((l.dropWhile fun c => c != d).drop 1).splitOn d).filter
          (fun seg => !seg.isEmpty) := by
  have h := splitOnP_takeWhile (fun c => c == d) l
  have h1 : (fun c : Char => !(c == d)) = fun c => c != d := rfl
  rw [h1] at h
  unfold List.splitOn
  rw [h]
  cases hdw : l.dropWhile (fun c => c != d) with
  | nil =>
    simp only [List.drop_nil, List.splitOnP_nil]
    simp [List.filter_cons]
  | cons x r => simp

theorem SplitStringLoop_segments (d : Char) :
    ∀ (fuel : Nat) (stream : List Char) (parts : List String), stream.length < fuel →
      ((SplitStringLoop d fuel stream parts).map String.data).filter
          (fun seg => !seg.isEmpty)
        = (parts.map String.data).filter (fun seg => !seg.isEmpty) ++
            (stream.splitOn d).filter (fun seg => !seg.isEmpty) := by
  intro fuel
  induction fuel with
  | zero => intro stream parts h; omega
  | succ fuel ih =>
    intro stream parts h
    cases stream with
    | nil => simp [SplitStringLoop, getline, List.splitOn, List.splitOnP_nil]
    | cons c cs =>
      have hlen : (((c :: cs).dropWhile fun c => c != d).drop 1).length < fuel := by
        have h1 := (List.dropWhile_suffix (fun c => c != d) (l := c :: cs)).length_le
        rw [List.length_drop]
        simp only [List.length_cons] at h h1
        omega
      simp only [SplitStringLoop, getline]
      rw [ih _ _ hlen, splitOn_filter_step d (c :: cs)]
      simp only [List.map_append, List.map_cons, List.map_nil, List.filter_append,
        List.append_assoc]
      congr 1
      rw [← List.filter_append]
      rfl

/-- The non-empty parts `SplitString` returns are the non-empty segments of the string. -/
theorem SplitString_segments (s : String) :
    ((SplitString s '_').map String.data).filter (fun seg => !seg.isEmpty)
      = snakeSegments s := by
  unfold SplitString snakeSegments
  rw [SplitStringLoop_segments '_' _ _ [] (Nat.lt_succ_self _)]
  simp

/-- The statements that append a non-empty part with its first character upper-cased. -/
theorem capitalize_step (result : String) (c : Char) (cs : List Char)
    (k : String → Option String) :
    ((char_at (String.mk (c :: cs)) 0).bind fun c0 =>
      if (String.mk (c :: cs)).data.length > 1 then
        (substr (String.mk (c :: cs)) 1).bind fun tail =>
          k (result.push (toupper c0) ++ tail)
      else k (result.push (toupper c0)))
      = k (result ++ String.mk (capitalizeSegment (c :: cs))) := by
  have hpush : ∀ tail : List Char,
      result.push (toupper c) ++ String.mk tail
        = result ++ String.mk (capitalizeSegment (c :: tail)) := by
    intro tail
    rw [String.ext_iff]
    simp [String.data_append, capitalizeSegment, toupper, String.push]
  cases cs with
  | nil =>
    have h := hpush []
    have h0 : result.push (toupper c) ++ String.mk [] = result.push (toupper c) := by
      rw [String.ext_iff]; simp [String.data_append]
    rw [h0] at h
    simp [char_at, h]
  | cons c2 cs2 =>
    simp [char_at, substr, hpush]

theorem SnakeToPascalCaseLoop_eq :
    ∀ (parts : List String) (result : String),
      SnakeToPascalCaseLoop parts result
        = some (result ++ String.mk
            (((parts.map String.data).filter fun seg => !seg.isEmpty).map
              capitalizeSegment).flatten)
  | [], result => by
    simp only [SnakeToPascalCaseLoop, List.map_nil, List.filter_nil, List.flatten_nil]
    congr 1
    rw [String.ext_iff]
    simp [String.data_append]
  | part :: rest, result => by
    cases part with
    | mk l =>
      cases l with
      | nil =>
        have he : empty (String.mk []) = true := rfl
        simp only [SnakeToPascalCaseLoop, he, if_true]
        rw [SnakeToPascalCaseLoop_eq rest result]
        simp
      | cons c cs =>
        have he : empty (String.mk (c :: cs)) = false := rfl
        simp only [SnakeToPascalCaseLoop, he, Bool.false_eq_true, if_false]
        rw [capitalize_step result c cs (fun r => SnakeToPascalCaseLoop rest r)]
        rw [SnakeToPascalCaseLoop_eq rest _]
        congr 1
        rw [String.ext_iff]
        simp [String.data_append]

/-- C13: `SnakeToPascalCase s` is the concatenation, in order, of the non-empty segments
of `s` between underscores, each with its first character upper-cased and the rest
unchanged; the empty input gives the empty string, `foo_bar_baz` gives `FooBarBaz`, and
`GetMethodName field` is `SnakeToPascalCase field.name`. -/
theorem SnakeToPascalCase_spec :
    (∀ s : String, SnakeToPascalCase s = some (pascalCaseOf s)) ∧
    SnakeToPascalCase "" = some "" ∧
    SnakeToPascalCase "foo_bar_baz" = some "FooBarBaz" ∧
    SnakeToPascalCase "__foo__bar_" = some "FooBar" ∧
    (∀ field : FieldDescriptorProto,
      TypeHelper.GetMethodName field = SnakeToPascalCase field.name) := by
  refine ⟨?_, by decide, by decide, by decide, fun _ => rfl⟩
  intro s
  unfold SnakeToPascalCase pascalCaseOf
  cases he : empty s with
  | true =>
    have hs : s = "" := (empty_iff s).mp he
    subst hs
    decide
  | false =>
    simp only [Bool.false_eq_true, if_false]
    rw [SnakeToPascalCaseLoop_eq, SplitString_segments]
    congr 1

/-- From the second part on, the loop of `SnakeToCamelCase` is that of
`SnakeToPascalCase`. -/
theorem SnakeToCamelCaseLoop_succ :
    ∀ (parts : List String) (i : Nat) (result : String),
      SnakeToCamelCaseLoop parts (i + 1) result = SnakeToPascalCaseLoop parts result
  | [], _, _ => rfl
  | part :: rest, i, result => by
    cases part with
    | mk l =>
      cases l with
      | nil =>
        have he : empty (String.mk []) = true := rfl
        simp only [SnakeToCamelCaseLoop, SnakeToPascalCaseLoop, he, if_true]
        exact SnakeToCamelCaseLoop_succ rest (i + 1) result
      | cons c cs =>
        have he : empty (String.mk (c :: cs)) = false := rfl
        simp only [SnakeToCamelCaseLoop, SnakeToPascalCaseLoop, he, Bool.false_eq_true,
          if_false, Nat.add_one_ne_zero]
        rw [capitalize_step result c cs (fun r => SnakeToCamelCaseLoop rest (i + 1 + 1) r),
          capitalize_step result c cs (fun r => SnakeToPascalCaseLoop rest r)]
        exact SnakeToCamelCaseLoop_succ rest (i + 1) _

theorem SnakeToCamelCaseLoop_total (parts : List String) (result : String) :
    ∃ r, SnakeToCamelCaseLoop parts 0 result = some r := by
  cases parts with
  | nil => exact ⟨result, rfl⟩
  | cons part rest =>
    simp only [SnakeToCamelCaseLoop, if_true]
    split
    · rw [SnakeToCamelCaseLoop_succ, SnakeToPascalCaseLoop_eq]
      exact ⟨_, rfl⟩
    · rw [SnakeToCamelCaseLoop_succ, SnakeToPascalCaseLoop_eq]
      exact ⟨_, rfl⟩

/-- C14 (the code at the failing input): for `_foo_bar` the part of index 0 is empty, the
first word `foo` has index 1 and is upper-cased: the result is `FooBar`, where the
camelCase form is `fooBar`. Without a leading underscore, `foo_bar_baz` gives
`fooBarBaz`. -/
theorem SnakeToCamelCase_leading_underscore :
    SplitString "_foo_bar" '_' = ["", "foo", "bar"] ∧
    SnakeToCamelCase "_foo_bar" = some "FooBar" ∧
    camelCaseOf "_foo_bar" = "fooBar" ∧
    SnakeToCamelCase "foo_bar_baz" = some "fooBarBaz" ∧
    camelCaseOf "foo_bar_baz" = "fooBarBaz" := by
  decide

/-! ## `RequestProcessor::ChangeExtension` -/

theorem findLastOfAux_spec (cs : List Char) (l : List Char) :
    (findLastOfAux cs l = none → ∀ c ∈ l, c ∉ cs) ∧
    (∀ p, findLastOfAux cs l = some p →
      ∃ x, x ∈ cs ∧ (∀ c ∈ l.drop (p + 1), c ∉ cs) ∧
        p = (l.take p).length ∧ l = l.take p ++ x :: l.drop (p + 1)) := by
  induction l with
  | nil => simp [findLastOfAux]
  | cons c t ih =>
    cases hq : findLastOfAux cs t with
    | some q =>
      obtain ⟨x, hx, h1, hlen, h2⟩ := ih.2 q hq
      refine ⟨by simp [findLastOfAux, hq], ?_⟩
      intro p hp
      simp only [findLastOfAux, hq, Option.some.injEq] at hp
      subst hp
      refine ⟨x, hx, by simpa using h1, ?_, ?_⟩
      · simp only [List.take_succ_cons, List.length_cons]
        omega
      · simp only [List.take_succ_cons, List.drop_succ_cons, List.cons_append,
          List.cons.injEq, true_and]
        exact h2
    | none =>
      have hn := ih.1 hq
      by_cases hc : c ∈ cs
      · refine ⟨by simp [findLastOfAux, hq, hc], ?_⟩
        intro p hp
        simp [findLastOfAux, hq, hc] at hp
        subst hp
        exact ⟨c, hc, by simpa using hn, by simp, by simp⟩
      · refine ⟨?_, ?_⟩
        · intro _ y hy
          rcases List.mem_cons.mp hy with h | h
          · subst h
            exact hc
          · exact hn y h
        · intro p hp
          simp [findLastOfAux, hq, hc] at hp

/-- Two ways to cut a list at an element: the element of the first cut does not occur
after the second cut, so the first cut is not later than the second. -/
theorem cut_le {A B A' B' : List Char} {x x' : Char}
    (h : A ++ x :: B = A' ++ x' :: B') (hx : x' ∉ B) : A'.length ≤ A.length := by
  rcases List.append_eq_append_iff.mp h with ⟨a', h1, h2⟩ | ⟨c', h1, h2⟩
  · cases a' with
    | nil => simp [h1]
    | cons y a'' =>
      simp only [List.cons_append, List.cons.injEq] at h2
      exact absurd (by rw [h2.2]; simp) hx
  · simp [h1]

theorem cut_lt {A B A' B' : List Char} {x x' : Char}
    (h : A ++ x :: B = A' ++ x' :: B') (hx : x' ∉ B) (hne : x ≠ x') :
    A'.length < A.length := by
  rcases List.append_eq_append_iff.mp h with ⟨a', h1, h2⟩ | ⟨c', h1, h2⟩
  · cases a' with
    | nil =>
      simp only [List.nil_append, List.cons.injEq] at h2
      exact absurd h2.1 hne
    | cons y a'' =>
      simp only [List.cons_append, List.cons.injEq] at h2
      exact absurd (by rw [h2.2]; simp) hx
  · cases c' with
    | nil =>
      simp only [List.nil_append, List.cons.injEq] at h2
      exact absurd h2.1.symm hne
    | cons y c'' => simp [h1]

namespace RequestProcessor

theorem ChangeExtension_eq (path new_ext : String) :
    ChangeExtension path new_ext =
      match findLastOfAux ['.'] path.data with
      | none => some (path ++ new_ext)
      | some dot_pos =>
        if (findLastOfAux ['/', '\\'] path.data).any fun slash_pos => dot_pos < slash_pos
        then some (path ++ new_ext)
        else some (String.mk (path.data.take dot_pos) ++ new_ext) := by
  unfold ChangeExtension find_last_of
  cases findLastOfAux ['.'] path.data with
  | none => rfl
  | some dot_pos =>
    simp only [substr_n, Nat.zero_le, if_true, List.drop_zero, Option.map_some']

theorem ChangeExtension_total (path new_ext : String) :
    ∃ r, ChangeExtension path new_ext = some r := by
  rw [ChangeExtension_eq]
  cases findLastOfAux ['.'] path.data with
  | none => exact ⟨_, rfl⟩
  | some dot_pos =>
    simp only
    split
    · exact ⟨_, rfl⟩
    · exact ⟨_, rfl⟩

/-- The last dot has no separator after it: the extension is replaced. -/
theorem ChangeExtension_replace (path new_ext : String) (S E : List Char)
    (hl : path.data = S ++ '.' :: E)
    (hE : ∀ c ∈ E, c ≠ '.' ∧ c ∉ ['/', '\\']) :
    ChangeExtension path new_ext = some (String.mk S ++ new_ext) := by
  have hdotE : '.' ∉ E := fun h => (hE _ h).1 rfl
  rw [ChangeExtension_eq]
  cases hd : findLastOfAux ['.'] path.data with
  | none =>
    have := (findLastOfAux_spec ['.'] path.data).1 hd '.' (by rw [hl]; simp)
    simp at this
  | some dp =>
    obtain ⟨x, hx, hF, hlen, hcut⟩ := (findLastOfAux_spec ['.'] path.data).2 dp hd
    have hx' : x = '.' := by simpa using hx
    subst hx'
    have hdotF : '.' ∉ path.data.drop (dp + 1) := fun h => hF _ h (by simp)
    have hcut2 : path.data.take dp ++ '.' :: path.data.drop (dp + 1) = S ++ '.' :: E := by
      rw [← hcut, hl]
    have h1 := cut_le hcut2 hdotF
    have h2 := cut_le hcut2.symm hdotE
    have hdp : dp = S.length := by omega
    have htake : path.data.take dp = S := by
      rw [hl, hdp, List.take_left']
      rfl
    simp only
    have hany : ((findLastOfAux ['/', '\\'] path.data).any fun slash_pos => dp < slash_pos)
        = false := by
      cases hs : findLastOfAux ['/', '\\'] path.data with
      | none => rfl
      | some sp =>
        obtain ⟨y, hy, hB, hlen2, hcut3⟩ := (findLastOfAux_spec ['/', '\\'] path.data).2 sp hs
        have hne : '.' ≠ y := by
          intro h
          subst h
          simp at hy
        have hyE : y ∉ E := fun h => (hE _ h).2 hy
        have hcut4 : S ++ '.' :: E
            = path.data.take sp ++ y :: path.data.drop (sp + 1) := by
          rw [← hcut3, hl]
        have h3 := cut_lt hcut4 hyE hne
        simp only [Option.any_some, decide_eq_false_iff_not]
        omega
    rw [hany]
    simp only [Bool.false_eq_true, if_false, htake]

/-- No dot, or no dot after some separator: the new extension is appended. -/
theorem ChangeExtension_append (path new_ext : String)
    (h : '.' ∉ path.data ∨
      ∃ (pre post : List Char) (sep : Char), sep ∈ ['/', '\\'] ∧
        path.data = pre ++ sep :: post ∧ '.' ∉ post) :
    ChangeExtension path new_ext = some (path ++ new_ext) := by
  rw [ChangeExtension_eq]
  cases hd : findLastOfAux ['.'] path.data with
  | none => rfl
  | some dp =>
    obtain ⟨x, hx, hF, hlen, hcut⟩ := (findLastOfAux_spec ['.'] path.data).2 dp hd
    have hx' : x = '.' := by simpa using hx
    subst hx'
    rcases h with h | ⟨pre, post, sep, hsep, hl, hpost⟩
    · exact absurd (by rw [hcut]; simp) h
    · have hne : sep ≠ '.' := by
        intro h
        subst h
        simp at hsep
      cases hs : findLastOfAux ['/', '\\'] path.data with
      | none =>
        have := (findLastOfAux_spec ['/', '\\'] path.data).1 hs sep (by rw [hl]; simp)
        exact absurd hsep this
      | some sp =>
        obtain ⟨y, hy, hB, hlen2, hcut3⟩ := (findLastOfAux_spec ['/', '\\'] path.data).2 sp hs
        have hcut4 : pre ++ sep :: post
            = path.data.take dp ++ '.' :: path.data.drop (dp + 1) := by
          rw [← hcut, hl]
        have h1 := cut_lt hcut4 hpost hne
        have hcut5 : path.data.take sp ++ y :: path.data.drop (sp + 1)
            = pre ++ sep :: post := by
          rw [← hcut3, hl]
        have h2 := cut_le hcut5 (hB sep · hsep)
        have hlt : dp < sp := by omega
        simp [hlt]

/-- The result keeps the path up to and including each of its separators. -/
theorem ChangeExtension_keeps_directory (path new_ext : String) (pre post : List Char)
    (sep : Char) (hsep : sep ∈ ['/', '\\']) (hl : path.data = pre ++ sep :: post) :
    ∃ rest : List Char, ChangeExtension path new_ext = some (String.mk (pre ++ sep :: rest)) := by
  have happ : path ++ new_ext = String.mk (pre ++ sep :: (post ++ new_ext.data)) := by
    rw [String.ext_iff]
    simp [String.data_append, hl]
  rw [ChangeExtension_eq]
  cases hd : findLastOfAux ['.'] path.data with
  | none => exact ⟨_, by rw [happ]⟩
  | some dp =>
    simp only
    split
    · exact ⟨_, by rw [happ]⟩
    · rename_i hany
      obtain ⟨x, hx, hF, hlen, hcut⟩ := (findLastOfAux_spec ['.'] path.data).2 dp hd
      have hx' : x = '.' := by simpa using hx
      subst hx'
      have hne : sep ≠ '.' := by
        intro h
        subst h
        simp at hsep
      cases hs : findLastOfAux ['/', '\\'] path.data with
      | none =>
        have := (findLastOfAux_spec ['/', '\\'] path.data).1 hs sep (by rw [hl]; simp)
        exact absurd hsep this
      | some sp =>
        obtain ⟨y, hy, hB, hlen2, hcut3⟩ := (findLastOfAux_spec ['/', '\\'] path.data).2 sp hs
        rw [hs] at hany
        simp only [Option.any_some, decide_eq_true_eq] at hany
        have hcut5 : path.data.take sp ++ y :: path.data.drop (sp + 1)
            = pre ++ sep :: post := by
          rw [← hcut3, hl]
        have h2 := cut_le hcut5 (hB sep · hsep)
        have hle : pre.length ≤ (path.data.take dp).length := by omega
        have hcut4 : pre ++ sep :: post
            = path.data.take dp ++ '.' :: path.data.drop (dp + 1) := by
          rw [← hcut, hl]
        rcases List.append_eq_append_iff.mp hcut4 with ⟨a', h3, h4⟩ | ⟨c', h3, h4⟩
        · cases a' with
          | nil =>
            simp only [List.nil_append, List.cons.injEq] at h4
            exact absurd h4.1 hne
          | cons z a'' =>
            simp only [List.cons_append, List.cons.injEq] at h4
            refine ⟨a'' ++ new_ext.data, ?_⟩
            rw [String.ext_iff.mpr (show (String.mk (path.data.take dp) ++ new_ext).data
              = (String.mk (pre ++ sep :: (a'' ++ new_ext.data))).data from ?_)]
            simp only [String.data_append, h3, h4.1, List.append_assoc, List.cons_append]
        · cases c' with
          | nil =>
            simp only [List.nil_append, List.cons.injEq] at h4
            exact absurd h4.1.symm hne
          | cons z c'' =>
            have hlen3 := congrArg List.length h3
            simp only [List.length_append, List.length_cons] at hlen3
            omega

/-- C15: `GetOutputFileName p` replaces everything from the last dot of `p` on by `.mjs`
when no dot and no separator follows that dot, and appends `.mjs` to `p` when `p` has no
dot or has a separator with no dot after it; every path is in one of the two cases. The
result ends in `.mjs` and keeps `p` up to and including each separator. Examples:
`pkg/file.proto` gives `pkg/file.mjs` and `a.b/file` gives `a.b/file.mjs`. -/
theorem GetOutputFileName_spec (p : String) :
    (∀ stem ext : String, p = stem ++ "." ++ ext →
      (∀ c ∈ ext.data, c ≠ '.' ∧ c ≠ '/' ∧ c ≠ '\\') →
      GetOutputFileName p = some (stem ++ ".mjs")) ∧
    (('.' ∉ p.data ∨
        ∃ (pre post : String) (sep : Char), (sep = '/' ∨ sep = '\\') ∧
          p = pre ++ String.mk [sep] ++ post ∧ '.' ∉ post.data) →
      GetOutputFileName p = some (p ++ ".mjs")) ∧
    ((∃ stem ext : String, p = stem ++ "." ++ ext ∧
        ∀ c ∈ ext.data, c ≠ '.' ∧ c ≠ '/' ∧ c ≠ '\\') ∨
      ('.' ∉ p.data ∨
        ∃ (pre post : String) (sep : Char), (sep = '/' ∨ sep = '\\') ∧
          p = pre ++ String.mk [sep] ++ post ∧ '.' ∉ post.data)) ∧
    (∃ body : String, GetOutputFileName p = some (body ++ ".mjs")) ∧
    (∀ (pre post : String) (sep : Char), (sep = '/' ∨ sep = '\\') →
      p = pre ++ String.mk [sep] ++ post →
      ∃ rest : String, GetOutputFileName p = some (pre ++ String.mk [sep] ++ rest)) ∧
    GetOutputFileName "pkg/file.proto" = some "pkg/file.mjs" ∧
    GetOutputFileName "a.b/file" = some "a.b/file.mjs" := by
  refine ⟨?_, ?_, ?_, ?_, ?_, by decide, by decide⟩
  · intro stem ext hp hext
    have hl : p.data = stem.data ++ '.' :: ext.data := by
      rw [hp]; simp [String.data_append]
    have hE : ∀ c ∈ ext.data, c ≠ '.' ∧ c ∉ ['/', '\\'] := by
      intro c hc
      obtain ⟨h1, h2, h3⟩ := hext c hc
      exact ⟨h1, by simp [h2, h3]⟩
    exact ChangeExtension_replace p ".mjs" stem.data ext.data hl hE
  · intro h
    apply ChangeExtension_append
    rcases h with h | ⟨pre, post, sep, hsep, hp, hpost⟩
    · exact Or.inl h
    · refine Or.inr ⟨pre.data, post.data, sep, by simpa using hsep, ?_, hpost⟩
      rw [hp]; simp [String.data_append]
  · cases hd : findLastOfAux ['.'] p.data with
    | none =>
      right; left
      intro h
      exact (findLastOfAux_spec ['.'] p.data).1 hd '.' h (by simp)
    | some dp =>
      obtain ⟨x, hx, hF, _, hcut⟩ := (findLastOfAux_spec ['.'] p.data).2 dp hd
      have hx' : x = '.' := by simpa using hx
      subst hx'
      by_cases hs : ∃ c ∈ p.data.drop (dp + 1), c = '/' ∨ c = '\\'
      · obtain ⟨c, hc, hsep⟩ := hs
        obtain ⟨F1, F2, hF12⟩ := List.append_of_mem hc
        right; right
        refine ⟨String.mk (p.data.take dp ++ '.' :: F1), String.mk F2, c, hsep, ?_, ?_⟩
        · rw [String.ext_iff]
          simp only [String.data_append, List.append_assoc, List.cons_append,
            List.singleton_append, List.nil_append]
          rw [← hF12]
          exact hcut
        · intro h
          exact hF '.' (by rw [hF12]; simp [h]) (by simp)
      · left
        refine ⟨String.mk (p.data.take dp), String.mk (p.data.drop (dp + 1)), ?_, ?_⟩
        · rw [String.ext_iff]
          simp only [String.data_append, List.append_assoc, List.singleton_append]
          exact hcut
        · intro c hc
          refine ⟨fun h => hF c hc (by simp [h]), fun h => hs ⟨c, hc, Or.inl h⟩,
            fun h => hs ⟨c, hc, Or.inr h⟩⟩
  · unfold GetOutputFileName
    rw [ChangeExtension_eq]
    cases findLastOfAux ['.'] p.data with
    | none => exact ⟨_, rfl⟩
    | some dp =>
      simp only
      split
      · exact ⟨_, rfl⟩
      · exact ⟨_, rfl⟩
  · intro pre post sep hsep hp
    have hl : p.data = pre.data ++ sep :: post.data := by
      rw [hp]; simp [String.data_append]
    obtain ⟨rest, hrest⟩ := ChangeExtension_keeps_directory p ".mjs" pre.data post.data sep
      (by simpa using hsep) hl
    refine ⟨String.mk rest, ?_⟩
    unfold GetOutputFileName
    rw [hrest]
    congr 1
    rw [String.ext_iff]
    simp [String.data_append]

/-- Witness of C15: the last dot of `../some.dir/file.proto` follows the last separator,
and `some.dir/file` has a separator with no dot after it. -/
theorem GetOutputFileName_spec_witness :
    GetOutputFileName "../some.dir/file.proto" = some ("../some.dir/file" ++ ".mjs") ∧
    GetOutputFileName "some.dir/file" = some ("some.dir/file" ++ ".mjs") :=
  ⟨(GetOutputFileName_spec "../some.dir/file.proto").1 "../some.dir/file" "proto"
      (by decide) (by decide),
   (GetOutputFileName_spec "some.dir/file").2.1
      (Or.inr ⟨"some.dir", "file", '/', Or.inl rfl, by decide, by decide⟩)⟩

theorem ProcessRequestLoop_spec (Generate : FileDescriptorProto → TypeResolver → String)
    (request : CodeGeneratorRequest) (all : List FileDescriptorProto) :
    ∀ (files : List FileDescriptorProto) (response : CodeGeneratorResponse),
      ∃ r, ProcessRequestLoop Generate request all files response = some r ∧
        r.file.map (fun f => some f.name)
          = response.file.map (fun f => some f.name) ++
            (files.filter fun pf => request.file_to_generate.contains pf.name).map
              (fun pf => GetOutputFileName pf.name) ∧
        r.file.map (fun f => f.content)
          = response.file.map (fun f => f.content) ++
            (files.filter fun pf => request.file_to_generate.contains pf.name).map
              (fun pf => GenerateFileContent Generate pf all) := by
  intro files
  induction files with
  | nil => intro response; exact ⟨response, rfl, by simp, by simp⟩
  | cons pf rest ih =>
    intro response
    cases hc : request.file_to_generate.contains pf.name with
    | false =>
      obtain ⟨r, hr, h1, h2⟩ := ih response
      refine ⟨r, ?_, ?_, ?_⟩
      · simp only [ProcessRequestLoop, hc, Bool.not_false, if_true]
        exact hr
      · rw [h1, List.filter_cons_of_neg (by rw [hc]; exact Bool.false_ne_true)]
      · rw [h2, List.filter_cons_of_neg (by rw [hc]; exact Bool.false_ne_true)]
    | true =>
      obtain ⟨n, hn⟩ := ChangeExtension_total pf.name ".mjs"
      have hn' : GetOutputFileName pf.name = some n := hn
      obtain ⟨r, hr, h1, h2⟩ := ih
        { file := response.file ++ [{ name := n, content := GenerateFileContent Generate pf all }] }
      refine ⟨r, ?_, ?_, ?_⟩
      · simp only [ProcessRequestLoop, hc, Bool.not_true, Bool.false_eq_true, if_false, hn',
          Option.some_bind]
        exact hr
      · rw [h1, List.filter_cons_of_pos (p := fun pf : FileDescriptorProto =>
            request.file_to_generate.contains pf.name) hc]
        simp [hn']
      · rw [h2, List.filter_cons_of_pos (p := fun pf : FileDescriptorProto =>
            request.file_to_generate.contains pf.name) hc]
        simp

theorem ProcessRequestLoop_congr (Generate : FileDescriptorProto → TypeResolver → String)
    (request request' : CodeGeneratorRequest) (all : List FileDescriptorProto)
    (h : ∀ n, n ∈ request'.file_to_generate ↔ n ∈ request.file_to_generate) :
    ∀ (files : List FileDescriptorProto) (response : CodeGeneratorResponse),
      ProcessRequestLoop Generate request' all files response
        = ProcessRequestLoop Generate request all files response := by
  have hc : ∀ n, request'.file_to_generate.contains n = request.file_to_generate.contains n := by
    intro n
    rw [Bool.eq_iff_iff]
    simpa using h n
  intro files
  induction files with
  | nil => intro response; rfl
  | cons pf rest ih =>
    intro response
    simp only [ProcessRequestLoop, hc, ih]

/-- C16: `ProcessRequest` returns a response whose file names are `GetOutputFileName` of
the names of exactly those entries of `proto_file` whose name occurs in
`file_to_generate`, in the order of `proto_file`, and whose contents are
`GenerateFileContent` of these entries and all files of the request. The response depends
on `file_to_generate` through membership only, so that repeating a name there changes
nothing. -/
theorem ProcessRequest_spec (Generate : FileDescriptorProto → TypeResolver → String)
    (request : CodeGeneratorRequest) :
    (∃ response, ProcessRequest Generate request = some response ∧
      response.file.map (fun f => some f.name)
        = (request.proto_file.filter fun pf =>
            request.file_to_generate.contains pf.name).map
            (fun pf => GetOutputFileName pf.name) ∧
      response.file.map (fun f => f.content)
        = (request.proto_file.filter fun pf =>
            request.file_to_generate.contains pf.name).map
            (fun pf => GenerateFileContent Generate pf request.proto_file)) ∧
    (∀ request' : CodeGeneratorRequest, request'.proto_file = request.proto_file →
      (∀ n, n ∈ request'.file_to_generate ↔ n ∈ request.file_to_generate) →
      ProcessRequest Generate request' = ProcessRequest Generate request) := by
  refine ⟨?_, ?_⟩
  · obtain ⟨r, hr, h1, h2⟩ := ProcessRequestLoop_spec Generate request request.proto_file
      request.proto_file { file := [] }
    exact ⟨r, hr, by simpa using h1, by simpa using h2⟩
  · intro request' hp hm
    unfold ProcessRequest
    simp only [hp]
    exact ProcessRequestLoop_congr Generate request request' _ hm _ _

/-- Witness of C16: `a.proto` is supplied as a dependency only, `zzz.proto` matches no
file and `b.proto` is requested twice; the response holds `b.mjs` once. -/
theorem ProcessRequest_spec_witness :
    ProcessRequest (fun pf _ => pf.name)
        ⟨["b.proto", "zzz.proto", "b.proto"], [a_proto, b_proto]⟩
      = some ⟨[⟨"b.mjs", "b.proto"⟩]⟩ ∧
    ProcessRequest (fun pf _ => pf.name)
        ⟨["b.proto", "zzz.proto", "b.proto"], [a_proto, b_proto]⟩
      = ProcessRequest (fun pf _ => pf.name) ⟨["zzz.proto", "b.proto"], [a_proto, b_proto]⟩ :=
  ⟨by decide,
   (ProcessRequest_spec (fun pf _ => pf.name) ⟨["zzz.proto", "b.proto"], [a_proto, b_proto]⟩).2
     ⟨["b.proto", "zzz.proto", "b.proto"], [a_proto, b_proto]⟩ rfl
     (by
       intro n
       simp only [List.mem_cons, List.mem_singleton, List.not_mem_nil, or_false]
       tauto)⟩

end RequestProcessor

/-! ## Totality, import order and unresolved references -/

theorem SnakeToCamelCase_total (s : String) : ∃ r, SnakeToCamelCase s = some r := by
  unfold SnakeToCamelCase
  split
  · exact ⟨s, rfl⟩
  · exact SnakeToCamelCaseLoop_total _ _

theorem GetJsType_total (tr : TypeNameTransformer) (f : FieldDescriptorProto)
    (file : FileDescriptorProto) : ∃ r, TypeHelper.GetJsType tr f file = some r := by
  obtain ⟨base, hb⟩ := TypeHelper.GetBaseJsType_total tr f file
  unfold TypeHelper.GetJsType
  rw [hb]
  simp only [Option.some_bind]
  split
  · split
    · exact ⟨_, rfl⟩
    · exact ⟨_, rfl⟩
  · exact ⟨_, rfl⟩

/-- C17: with checked character access and checked `substr`, `SnakeToCamelCase`,
`SnakeToPascalCase`, `GetLastComponent`, `GetMessageTypeName`, `GetIndependentClassName`,
`GetBaseJsType`, `GetJsType` and `ChangeExtension` return a string on every input: the
error branch is never taken. This covers the empty name, names made of dots or of
underscores only, and a package longer than the type name. -/
theorem operations_total :
    (∀ s : String, ∃ r, SnakeToCamelCase s = some r) ∧
    (∀ s : String, ∃ r, SnakeToPascalCase s = some r) ∧
    (∀ s : String, ∃ r, GetLastComponent s = some r) ∧
    (∀ (t : String) (file : FileDescriptorProto),
      ∃ r, TypeHelper.GetMessageTypeName t file = some r) ∧
    (∀ (t : String) (pf : Option FileDescriptorProto),
      ∃ r, TypeHelper.GetIndependentClassName t pf = some r) ∧
    (∀ (tr : TypeNameTransformer) (f : FieldDescriptorProto) (file : FileDescriptorProto),
      ∃ r, TypeHelper.GetBaseJsType tr f file = some r) ∧
    (∀ (tr : TypeNameTransformer) (f : FieldDescriptorProto) (file : FileDescriptorProto),
      ∃ r, TypeHelper.GetJsType tr f file = some r) ∧
    (∀ path new_ext : String, ∃ r, RequestProcessor.ChangeExtension path new_ext = some r) ∧
    SnakeToCamelCase "___" = some "" ∧
    SnakeToPascalCase "_" = some "" ∧
    GetLastComponent "..." = some "" ∧
    TypeHelper.GetMessageTypeName "" a_proto = some "" ∧
    TypeHelper.GetMessageTypeName "." a_proto = some "" ∧
    TypeHelper.GetMessageTypeName "pk" a_proto = some "pk" ∧
    TypeHelper.GetMessageTypeName ".pkg." a_proto = some "" ∧
    TypeHelper.GetIndependentClassName ".pkg" (some a_proto) = some "__pkg" ∧
    RequestProcessor.ChangeExtension "." ".mjs" = some ".mjs" := by
  refine ⟨SnakeToCamelCase_total, ?_, GetLastComponent_total,
    TypeHelper.GetMessageTypeName_total, TypeHelper.GetIndependentClassName_total,
    TypeHelper.GetBaseJsType_total, GetJsType_total, RequestProcessor.ChangeExtension_total,
    by decide, by decide, by decide, by decide, by decide, by decide, by decide, by decide,
    by decide⟩
  intro s
  unfold SnakeToPascalCase
  split
  · exact ⟨s, rfl⟩
  · exact ⟨_, SnakeToPascalCaseLoop_eq _ _⟩

/-- C18 (as stated, refuted): with a set that is iterated in reverse order of insertion, a
permutation of the inserted pairs, the same two names given in the two possible orders
yield two different sequences. -/
theorem GetRequiredImports_order_depends_on_input :
    (∀ l : List TypeInfo, l.reverse.Perm l) ∧
    (∀ n, n ∈ [".pkg.Foo", ".pkg.Foo.Bar"] ↔ n ∈ [".pkg.Foo.Bar", ".pkg.Foo"]) ∧
    (TypeResolver.new b_proto [a_proto, b_proto]).GetRequiredImports List.reverse
        [".pkg.Foo", ".pkg.Foo.Bar"] = [("a.proto", "Bar"), ("a.proto", "Foo")] ∧
    (TypeResolver.new b_proto [a_proto, b_proto]).GetRequiredImports List.reverse
        [".pkg.Foo.Bar", ".pkg.Foo"] = [("a.proto", "Foo"), ("a.proto", "Bar")] ∧
    (TypeResolver.new b_proto [a_proto, b_proto]).GetRequiredImports List.reverse
        [".pkg.Foo", ".pkg.Foo.Bar"]
      ≠ (TypeResolver.new b_proto [a_proto, b_proto]).GetRequiredImports List.reverse
        [".pkg.Foo.Bar", ".pkg.Foo"] := by
  refine ⟨List.reverse_perm, ?_, by decide, by decide, by decide⟩
  intro n
  simp only [List.mem_cons, List.mem_singleton, List.not_mem_nil, or_false]
  tauto

/-- C18 (amended): whatever the iteration order of the set, two lists that contain the
same type names, in any order and multiplicity, yield the same pairs, each once: the two
results are permutations of each other. -/
theorem GetRequiredImports_perm (r : TypeResolver)
    (iteration_order : List TypeInfo → List TypeInfo) (ns1 ns2 : List String)
    (horder : ∀ l, (iteration_order l).Perm l) (hsame : ∀ n, n ∈ ns1 ↔ n ∈ ns2) :
    (r.GetRequiredImports iteration_order ns1).Perm
      (r.GetRequiredImports iteration_order ns2) ∧
    (r.GetRequiredImports iteration_order ns1).Nodup := by
  unfold TypeResolver.GetRequiredImports
  have hn1 := imports_fold_nodup r ns1 [] List.nodup_nil
  have hn2 := imports_fold_nodup r ns2 [] List.nodup_nil
  refine ⟨?_, ((horder _).nodup_iff).mpr hn1⟩
  refine ((horder _).trans ?_).trans (horder _).symm
  rw [List.perm_ext_iff_of_nodup hn1 hn2]
  intro p
  rw [imports_fold_mem, imports_fold_mem]
  simp only [List.not_mem_nil, false_or]
  constructor
  · rintro ⟨n, hn, h⟩
    exact ⟨n, (hsame n).mp hn, h⟩
  · rintro ⟨n, hn, h⟩
    exact ⟨n, (hsame n).mpr hn, h⟩

/-- Witness of C18 (amended): the two orders of the names `.pkg.Foo` and `.pkg.Foo.Bar`,
the second with a repetition, with the set iterated in reverse order of insertion. -/
theorem GetRequiredImports_perm_witness :
    (∀ l : List TypeInfo, l.reverse.Perm l) ∧
    ((TypeResolver.new b_proto [a_proto, b_proto]).GetRequiredImports List.reverse
        [".pkg.Foo", ".pkg.Foo.Bar"]).Perm
      ((TypeResolver.new b_proto [a_proto, b_proto]).GetRequiredImports List.reverse
        [".pkg.Foo.Bar", ".pkg.Foo", ".pkg.Foo.Bar"]) :=
  ⟨List.reverse_perm,
   (GetRequiredImports_perm (TypeResolver.new b_proto [a_proto, b_proto]) List.reverse
      [".pkg.Foo", ".pkg.Foo.Bar"] [".pkg.Foo.Bar", ".pkg.Foo", ".pkg.Foo.Bar"]
      List.reverse_perm
      (by
        intro n
        simp only [List.mem_cons, List.mem_singleton, List.not_mem_nil, or_false]
        tauto)).1⟩

namespace TypeHelper

/-- C20 (as stated, refuted): in the unit of `a.proto` and `b.proto` no type has the name
`.pkg.Missing`, and the empty name is no type name either; with no transformer installed
a field of message type `.pkg.Missing` gets the type `Missing` (`Missing[]` when
repeated), an enum-typed one as well, and a field with an empty type name gets the empty
string, not `any`. -/
theorem GetBaseJsType_unresolved_not_any :
    ".pkg.Missing" ∉ (TypeResolver.BuildTypeMap [a_proto, b_proto] []).keys ∧
    "" ∉ (TypeResolver.BuildTypeMap [a_proto, b_proto] []).keys ∧
    GetBaseJsType none ⟨"m", .LABEL_OPTIONAL, .TYPE_MESSAGE, ".pkg.Missing"⟩ b_proto
      = some "Missing" ∧
    GetBaseJsType none ⟨"e", .LABEL_OPTIONAL, .TYPE_ENUM, ".pkg.Missing"⟩ b_proto
      = some "Missing" ∧
    GetJsType none ⟨"ms", .LABEL_REPEATED, .TYPE_MESSAGE, ".pkg.Missing"⟩ b_proto
      = some "Missing[]" ∧
    GetBaseJsType none ⟨"x", .LABEL_OPTIONAL, .TYPE_MESSAGE, ""⟩ b_proto = some "" ∧
    GetBaseJsType none ⟨"m", .LABEL_OPTIONAL, .TYPE_MESSAGE, ".pkg.Missing"⟩ b_proto
      ≠ some "any" := by
  decide

theorem GetMessageTypeName_empty (file : FileDescriptorProto) :
    GetMessageTypeName "" file = some "" := by
  have h : ¬ (file.package ≠ "" ∧
      ∃ rem : String, stripLeadingDot "" = file.package ++ "." ++ rem ∧ '.' ∈ rem.data) := by
    rintro ⟨_, rem, hrem, _⟩
    have hd := congrArg String.data hrem
    have h0 : (stripLeadingDot "").data = [] := rfl
    rw [h0] at hd
    simp [String.data_append] at hd
  rw [GetMessageTypeName_of_not_nested "" file h]
  rfl

/-- C20 (amended): an unresolvable type reference is not detected and does not fail: for
every message- or enum-typed field, whatever the compilation unit declares, with no
transformer installed `GetBaseJsType` returns the name computed from the type name alone,
`GetMessageTypeName` for a message and `GetLastComponent` for an enum, which is the empty
string for an empty type name; `GetJsType` returns that name when the label is not
repeated, that name followed by `[]` when the label is repeated and the field is not a
map field, and `any` when it is a map field. -/
theorem GetBaseJsType_unresolved (f : FieldDescriptorProto) (file : FileDescriptorProto)
    (hty : f.type = .TYPE_MESSAGE ∨ f.type = .TYPE_ENUM) :
    ∃ r, GetBaseJsType none f file = some r ∧
      (if f.type = .TYPE_MESSAGE then GetMessageTypeName f.type_name file
        else GetLastComponent f.type_name) = some r ∧
      (f.type_name = "" → r = "") ∧
      (f.label ≠ .LABEL_REPEATED → GetJsType none f file = some r) ∧
      (f.label = .LABEL_REPEATED → IsMapField f = false →
        GetJsType none f file = some (r ++ "[]")) ∧
      (IsMapField f = true → GetJsType none f file = some "any") := by
  obtain ⟨r, hr⟩ := GetBaseJsType_total none f file
  have hname : (if f.type = .TYPE_MESSAGE then GetMessageTypeName f.type_name file
      else GetLastComponent f.type_name) = some r := by
    rw [← hr]
    rcases hty with h | h <;> simp [GetBaseJsType, h]
  refine ⟨r, hr, hname, ?_, ?_, ?_, ?_⟩
  · intro he
    rw [he] at hname
    have hlast : GetLastComponent "" = some "" := rfl
    rcases hty with h | h
    · rw [if_pos h, GetMessageTypeName_empty] at hname
      exact (Option.some.inj hname).symm
    · have hne : ¬ f.type = .TYPE_MESSAGE := by rw [h]; decide
      rw [if_neg hne, hlast] at hname
      exact (Option.some.inj hname).symm
  · intro hl
    simp [GetJsType, hr, hl]
  · intro hl hm
    simp [GetJsType, hr, hl, hm]
  · intro hm
    have hl : f.label = .LABEL_REPEATED := by
      simp only [IsMapField, Bool.and_eq_true, decide_eq_true_eq] at hm
      exact hm.1.2
    simp [GetJsType, hr, hl, hm]

/-- Witness of C20 (amended) at a repeated field of the undeclared type `.pkg.Missing`:
its type is `Missing[]`. -/
theorem GetBaseJsType_unresolved_witness :
    (FieldDescriptorProto_Type.TYPE_MESSAGE = .TYPE_MESSAGE ∨
      FieldDescriptorProto_Type.TYPE_MESSAGE = .TYPE_ENUM) ∧
    ".pkg.Missing" ∉ (TypeResolver.BuildTypeMap [a_proto, b_proto] []).keys ∧
    GetJsType none ⟨"ms", .LABEL_REPEATED, .TYPE_MESSAGE, ".pkg.Missing"⟩ b_proto
      = some "Missing[]" ∧
    ∃ r, GetBaseJsType none ⟨"ms", .LABEL_REPEATED, .TYPE_MESSAGE, ".pkg.Missing"⟩ b_proto
        = some r ∧
      (if FieldDescriptorProto_Type.TYPE_MESSAGE = .TYPE_MESSAGE
        then GetMessageTypeName ".pkg.Missing" b_proto
        else GetLastComponent ".pkg.Missing") = some r ∧
      (".pkg.Missing" = "" → r = "") ∧
      (FieldDescriptorProto_Label.LABEL_REPEATED ≠ .LABEL_REPEATED →
        GetJsType none ⟨"ms", .LABEL_REPEATED, .TYPE_MESSAGE, ".pkg.Missing"⟩ b_proto
          = some r) ∧
      (FieldDescriptorProto_Label.LABEL_REPEATED = .LABEL_REPEATED →
        IsMapField ⟨"ms", .LABEL_REPEATED, .TYPE_MESSAGE, ".pkg.Missing"⟩ = false →
        GetJsType none ⟨"ms", .LABEL_REPEATED, .TYPE_MESSAGE, ".pkg.Missing"⟩ b_proto
          = some (r ++ "[]")) ∧
      (IsMapField ⟨"ms", .LABEL_REPEATED, .TYPE_MESSAGE, ".pkg.Missing"⟩ = true →
        GetJsType none ⟨"ms", .LABEL_REPEATED, .TYPE_MESSAGE, ".pkg.Missing"⟩ b_proto
          = some "any") :=
  ⟨Or.inl rfl, by decide, by decide,
   GetBaseJsType_unresolved ⟨"ms", .LABEL_REPEATED, .TYPE_MESSAGE, ".pkg.Missing"⟩ b_proto
     (Or.inl rfl)⟩

end TypeHelper

/-! ## Idempotence of `GetOutputFileName` -/

namespace RequestProcessor

theorem ChangeExtension_ends (path new_ext : String) :
    ∃ body : String, ChangeExtension path new_ext = some (body ++ new_ext) := by
  rw [ChangeExtension_eq]
  cases findLastOfAux ['.'] path.data with
  | none => exact ⟨_, rfl⟩
  | some dp =>
    simp only
    split
    · exact ⟨_, rfl⟩
    · exact ⟨_, rfl⟩

/-- C23: `GetOutputFileName` is idempotent: it returns some `r`, which ends in `.mjs`, a
final dot followed by neither a dot nor a separator, and `GetOutputFileName r` is `r`
again; a rewritten name gets no second extension. -/
theorem GetOutputFileName_idempotent (p : String) :
    (∃ r body : String, GetOutputFileName p = some r ∧ r = body ++ ".mjs" ∧
      GetOutputFileName r = some r) ∧
    (GetOutputFileName p).bind GetOutputFileName = GetOutputFileName p ∧
    GetOutputFileName "a.b/file.mjs" = some "a.b/file.mjs" ∧
    GetOutputFileName ".mjs" = some ".mjs" := by
  obtain ⟨body, hb⟩ := ChangeExtension_ends p ".mjs"
  have hl : (body ++ ".mjs").data = body.data ++ '.' :: ['m', 'j', 's'] := by
    simp [String.data_append]
  have hE : ∀ c ∈ ['m', 'j', 's'], c ≠ '.' ∧ c ∉ ['/', '\\'] := by decide
  have hr : GetOutputFileName (body ++ ".mjs") = some (body ++ ".mjs") :=
    ChangeExtension_replace (body ++ ".mjs") ".mjs" body.data ['m', 'j', 's'] hl hE
  have hp : GetOutputFileName p = some (body ++ ".mjs") := hb
  refine ⟨⟨_, body, hp, rfl, hr⟩, ?_, by decide, by decide⟩
  rw [hp, Option.some_bind, hr]

end RequestProcessor

/-! ## Names of nested messages: reference and definition -/

theorem foldl_dot_append (a : String) (l : List String) :
    ∀ b : String, l.foldl (fun acc n => acc ++ "." ++ n) (a ++ b)
      = a ++ l.foldl (fun acc n => acc ++ "." ++ n) b := by
  induction l with
  | nil => intro b; rfl
  | cons n l ih =>
    intro b
    simp only [List.foldl_cons]
    rw [String.append_assoc, String.append_assoc, ← String.append_assoc b, ih]

theorem foldl_dot_mem (l : List String) :
    ∀ b : String, '.' ∈ b.data → '.' ∈ (l.foldl (fun acc n => acc ++ "." ++ n) b).data := by
  induction l with
  | nil => intro b h; exact h
  | cons n l ih =>
    intro b _
    simp only [List.foldl_cons]
    apply ih
    simp [String.data_append]

/-- The qualified name of a path is the start of the names of the file followed by the
components of the path joined by dots. -/
theorem qualifiedName_cons (file : FileDescriptorProto) (n1 : String) (rest : List String) :
    qualifiedName file.package (n1 :: rest)
      = typeNameBase file ++ rest.foldl (fun acc n => acc ++ "." ++ n) n1 := by
  unfold qualifiedName typeNameBase
  cases he : empty file.package with
  | true =>
    simp only [if_true, List.foldl_cons]
    rw [← foldl_dot_append]
    congr 1
  | false =>
    simp only [Bool.false_eq_true, if_false, List.foldl_cons]
    rw [← foldl_dot_append]
    congr 1

namespace TypeHelper

/-- In a file with a package, a message nested at a path of two or more components is
referred to by the independent class name under which it is hoisted. -/
theorem GetMessageTypeName_nested_in_package (file : FileDescriptorProto)
    (hp : file.package ≠ "") (n1 n2 : String) (rest : List String) :
    GetMessageTypeName (qualifiedName file.package (n1 :: n2 :: rest)) file
      = GetIndependentClassName (qualifiedName file.package (n1 :: n2 :: rest))
          (some file) := by
  have he : empty file.package = false := (empty_eq_false_iff _).mpr hp
  have hq : qualifiedName file.package (n1 :: n2 :: rest)
      = "." ++ (file.package ++ "." ++
          (n2 :: rest).foldl (fun acc n => acc ++ "." ++ n) n1) := by
    rw [qualifiedName_cons, typeNameBase, he]
    simp only [Bool.false_eq_true, if_false, String.append_assoc]
  have hd : '.' ∈ ((n2 :: rest).foldl (fun acc n => acc ++ "." ++ n) n1).data := by
    simp only [List.foldl_cons]
    apply foldl_dot_mem
    simp [String.data_append]
  apply GetMessageTypeName_of_nested _ file _ hp _ hd
  rw [hq, stripLeadingDot_dot_append]

/-- C21 (as stated, refuted): in a file without package the nested message `Inner` of
`Outer` is registered under `.Outer.Inner`, the name `GetFullName` builds; a field of
that type gets the type `Inner`, which is not the independent class name `__Outer_Inner`
of the nested class. -/
theorem GetMessageTypeName_nested_without_package :
    no_package_proto.package = "" ∧
    TypeResolver.GetFullName "Inner" "" (TypeResolver.GetFullName "Outer" "" "")
      = ".Outer.Inner" ∧
    (TypeResolver.BuildTypeMap [no_package_proto] []).find ".Outer.Inner"
      = some ("nopkg.proto", "Inner") ∧
    GetMessageTypeName ".Outer.Inner" no_package_proto = some "Inner" ∧
    GetBaseJsType none ⟨"inner", .LABEL_OPTIONAL, .TYPE_MESSAGE, ".Outer.Inner"⟩
      no_package_proto = some "Inner" ∧
    GetIndependentClassName ".Outer.Inner" (some no_package_proto) = some "__Outer_Inner" ∧
    GetMessageTypeName ".Outer.Inner" no_package_proto
      ≠ GetIndependentClassName ".Outer.Inner" (some no_package_proto) := by
  decide

/-- In a file without package the name a reference gets is never the independent class
name, whatever the type name: it is a part of the name, and the independent class name
is longer than the name. -/
theorem GetMessageTypeName_ne_independent_without_package (t : String)
    (file : FileDescriptorProto) (hp : file.package = "") :
    GetMessageTypeName t file ≠ GetIndependentClassName t (some file) := by
  have h1 : ¬ (file.package ≠ "" ∧
      ∃ rem : String, stripLeadingDot t = file.package ++ "." ++ rem ∧ '.' ∈ rem.data) :=
    fun h => h.1 hp
  have h2 : ¬ ∃ f, some file = some f ∧ f.package ≠ "" ∧
      ∃ rem : String, stripLeadingDot t = f.package ++ "." ++ rem := by
    rintro ⟨f, hf, hne, _⟩
    simp only [Option.some.injEq] at hf
    subst hf
    exact hne hp
  obtain ⟨r, hr, _, hsh⟩ := GetLastComponent_spec (stripLeadingDot t)
  rw [GetMessageTypeName_of_not_nested t file h1, hr,
    GetIndependentClassName_of_no_package t (some file) h2]
  intro heq
  have hlen := congrArg (fun o : Option String => o.map fun x => x.data.length) heq
  simp only [Option.map_some', Option.some.injEq, String.data_append, List.length_append,
    List.length_map] at hlen
  have h3 : r.data.length ≤ (stripLeadingDot t).data.length := by
    rcases hsh with h | ⟨pre, h⟩
    · rw [h]
    · rw [h]
      simp only [String.data_append, List.length_append]
      omega
  have h4 : ['_', '_'].length = 2 := rfl
  omega

/-- The name built by `GetFullName` along a nesting path, as `RegisterMessage` builds it
from the empty parent name on, is the qualified name of the path. -/
theorem GetFullName_foldl (pkg : String) :
    ∀ (rest : List String) (n0 parent : String) (pth : List String),
      (∀ n, TypeResolver.GetFullName n pkg parent = qualifiedName pkg (pth ++ [n])) →
      (n0 :: rest).foldl (fun parent n => TypeResolver.GetFullName n pkg parent) parent
        = qualifiedName pkg (pth ++ n0 :: rest)
  | [], n0, parent, pth, h => by
    simp only [List.foldl_cons, List.foldl_nil]
    exact h n0
  | n1 :: r, n0, parent, pth, h => by
    have ih := GetFullName_foldl pkg r n1 (TypeResolver.GetFullName n0 pkg parent)
      (pth ++ [n0]) (GetFullName_step pkg parent pth h n0)
    rw [List.foldl_cons, ih]
    simp

/-- C21 (amended): in a file with a non-empty package, for every nesting path of two or
more names, in particular the path of every message nested in the file, the
fully-qualified name `t` built by `GetFullName` along the path is the qualified name of
the path, and `GetMessageTypeName t file`, the name a field referencing `t` receives with
no transformer, equals `GetIndependentClassName t file`; both are `__Outer_Inner` for
`.pkg.Outer.Inner` in a file of package `pkg`. -/
theorem GetMessageTypeName_nested_agrees (file : FileDescriptorProto)
    (hp : file.package ≠ "") :
    (∀ (n1 n2 : String) (rest : List String),
      (n1 :: n2 :: rest).foldl
          (fun parent n => TypeResolver.GetFullName n file.package parent) ""
        = qualifiedName file.package (n1 :: n2 :: rest) ∧
      GetMessageTypeName
          ((n1 :: n2 :: rest).foldl
            (fun parent n => TypeResolver.GetFullName n file.package parent) "") file
        = GetIndependentClassName
          ((n1 :: n2 :: rest).foldl
            (fun parent n => TypeResolver.GetFullName n file.package parent) "")
          (some file)) ∧
    (∀ (path : List String) (m : DescriptorProto),
      MessageAt file.message_type path m → 2 ≤ path.length →
      GetMessageTypeName
          (path.foldl (fun parent n => TypeResolver.GetFullName n file.package parent) "")
          file
        = GetIndependentClassName
          (path.foldl (fun parent n => TypeResolver.GetFullName n file.package parent) "")
          (some file)) ∧
    GetMessageTypeName ".pkg.Outer.Inner" nested_message_proto = some "__Outer_Inner" ∧
    GetIndependentClassName ".pkg.Outer.Inner" (some nested_message_proto)
      = some "__Outer_Inner" := by
  have hq : ∀ (n1 n2 : String) (rest : List String),
      (n1 :: n2 :: rest).foldl
          (fun parent n => TypeResolver.GetFullName n file.package parent) ""
        = qualifiedName file.package (n1 :: n2 :: rest) := by
    intro n1 n2 rest
    have h := GetFullName_foldl file.package (n2 :: rest) n1 "" []
      (fun n => GetFullName_top n file.package)
    simpa using h
  have hall : ∀ (n1 n2 : String) (rest : List String),
      GetMessageTypeName
          ((n1 :: n2 :: rest).foldl
            (fun parent n => TypeResolver.GetFullName n file.package parent) "") file
        = GetIndependentClassName
          ((n1 :: n2 :: rest).foldl
            (fun parent n => TypeResolver.GetFullName n file.package parent) "")
          (some file) := by
    intro n1 n2 rest
    rw [hq]
    exact GetMessageTypeName_nested_in_package file hp n1 n2 rest
  refine ⟨fun n1 n2 rest => ⟨hq n1 n2 rest, hall n1 n2 rest⟩, ?_, by decide, by decide⟩
  intro path m _ hlen
  cases path with
  | nil => simp at hlen
  | cons n1 tl =>
    cases tl with
    | nil => simp at hlen
    | cons n2 rest => exact hall n1 n2 rest

/-- Witness of C21 (amended): the message `Inner` nested in `Outer` in a file of package
`pkg`; the name built along its path is `.pkg.Outer.Inner`. -/
theorem GetMessageTypeName_nested_agrees_witness :
    nested_message_proto.package ≠ "" ∧
    ["Outer", "Inner"].foldl
        (fun parent n => TypeResolver.GetFullName n nested_message_proto.package parent) ""
      = ".pkg.Outer.Inner" ∧
    GetMessageTypeName
        (["Outer", "Inner"].foldl
          (fun parent n => TypeResolver.GetFullName n nested_message_proto.package parent)
          "") nested_message_proto
      = GetIndependentClassName
        (["Outer", "Inner"].foldl
          (fun parent n => TypeResolver.GetFullName n nested_message_proto.package parent)
          "") (some nested_message_proto) :=
  ⟨by decide, by decide,
   ((GetMessageTypeName_nested_agrees nested_message_proto (by decide)).1
      "Outer" "Inner" []).2⟩

end TypeHelper

/-! ## `SnakeToPascalCase` against `SnakeToCamelCase` -/

theorem toUpper_range (c : Char) (h : c.toNat ≥ 97 ∧ c.toNat ≤ 122) :
    (Char.ofNat (c.toNat - 32)).toUpper = Char.ofNat (c.toNat - 32) ∧
      Char.ofNat (c.toNat - 32) ≠ '_' := by
  obtain ⟨h1, h2⟩ := h
  generalize c.toNat = n at h1 h2
  interval_cases n <;> decide

theorem toUpper_idem (c : Char) : c.toUpper.toUpper = c.toUpper := by
  by_cases h : c.toNat ≥ 97 ∧ c.toNat ≤ 122
  · have h1 : c.toUpper = Char.ofNat (c.toNat - 32) := by
      simp only [Char.toUpper, h, and_self, if_true]
    rw [h1]
    exact (toUpper_range c h).1
  · have h1 : c.toUpper = c := by
      simp only [Char.toUpper, h, if_false]
    rw [h1, h1]

theorem toUpper_ne_underscore (c : Char) (hc : c ≠ '_') : c.toUpper ≠ '_' := by
  by_cases h : c.toNat ≥ 97 ∧ c.toNat ≤ 122
  · have h1 : c.toUpper = Char.ofNat (c.toNat - 32) := by
      simp only [Char.toUpper, h, and_self, if_true]
    rw [h1]
    exact (toUpper_range c h).2
  · have h1 : c.toUpper = c := by
      simp only [Char.toUpper, h, if_false]
    rw [h1]
    exact hc

theorem toUpper_of_isUpper (c : Char) (h : c.isUpper = true) : c.toUpper = c := by
  have h2 : ¬ (c.toNat ≥ 97 ∧ c.toNat ≤ 122) := by
    simp only [Char.isUpper, Bool.and_eq_true, decide_eq_true_eq] at h
    have h3 : c.val ≤ 90 := h.2
    have : c.toNat ≤ 90 := h3
    omega
  simp only [Char.toUpper, h2, if_false]

/-- Upper-casing the first character of a concatenation of capitalised non-empty
segments changes nothing. -/
theorem capitalizeSegment_flatten (L : List (List Char)) (hL : ∀ seg ∈ L, seg ≠ []) :
    capitalizeSegment ((L.map capitalizeSegment).flatten)
      = (L.map capitalizeSegment).flatten := by
  cases L with
  | nil => rfl
  | cons seg L =>
    cases seg with
    | nil => exact absurd rfl (hL [] (List.mem_cons_self _ _))
    | cons c cs =>
      simp only [List.map_cons, List.flatten_cons, capitalizeSegment, List.cons_append,
        toUpper_idem]

theorem SplitStringLoop_parts (d : Char) :
    ∀ (fuel : Nat) (stream : List Char) (parts : List String),
      SplitStringLoop d fuel stream parts = parts ++ SplitStringLoop d fuel stream [] := by
  intro fuel
  induction fuel with
  | zero => intro stream parts; simp [SplitStringLoop]
  | succ fuel ih =>
    intro stream parts
    cases hg : getline stream d with
    | none => simp [SplitStringLoop, hg]
    | some pr =>
      obtain ⟨part, rest⟩ := pr
      simp only [SplitStringLoop, hg]
      rw [ih rest (parts ++ [part]), ih rest ([] ++ [part])]
      simp

/-- The first part of a non-empty string is what precedes its first underscore. -/
theorem SplitString_first (s : String) (c : Char) (cs : List Char) (hs : s.data = c :: cs) :
    ∃ rest : List String,
      SplitString s '_'
        = String.mk ((c :: cs).takeWhile fun x => x != '_') :: rest := by
  unfold SplitString
  rw [hs]
  have h1 : SplitStringLoop '_' ((c :: cs).length + 1) (c :: cs) []
      = SplitStringLoop '_' (c :: cs).length
          (((c :: cs).dropWhile fun x => x != '_').drop 1)
          ([] ++ [String.mk ((c :: cs).takeWhile fun x => x != '_')]) := rfl
  rw [h1, SplitStringLoop_parts]
  exact ⟨_, rfl⟩

theorem SnakeToCamelCaseLoop_capitalized (parts : List String) :
    (SnakeToCamelCaseLoop parts 0 "").map capitalizeFirst
      = SnakeToPascalCaseLoop parts "" := by
  cases parts with
  | nil => rfl
  | cons part rest =>
    cases part with
    | mk l =>
      cases l with
      | nil =>
        have he : empty (String.mk []) = true := rfl
        simp only [SnakeToCamelCaseLoop, SnakeToPascalCaseLoop, he, if_true]
        rw [SnakeToCamelCaseLoop_succ, SnakeToPascalCaseLoop_eq]
        simp only [Option.map_some', Option.some.injEq]
        rw [String.ext_iff]
        simp only [capitalizeFirst, String.data_append]
        exact capitalizeSegment_flatten _ (fun seg hseg => by
          have := (List.mem_filter.mp hseg).2
          intro h
          rw [h] at this
          simp at this)
      | cons c cs =>
        have he : empty (String.mk (c :: cs)) = false := rfl
        simp only [SnakeToCamelCaseLoop, SnakeToPascalCaseLoop, he, Bool.false_eq_true,
          if_false, if_true]
        rw [capitalize_step "" c cs (fun r => SnakeToPascalCaseLoop rest r),
          SnakeToCamelCaseLoop_succ, SnakeToPascalCaseLoop_eq, SnakeToPascalCaseLoop_eq]
        simp only [Option.map_some', Option.some.injEq]
        rw [String.ext_iff]
        simp [capitalizeFirst, String.data_append, capitalizeSegment]

theorem splitOnP_segments (p : Char → Bool) :
    ∀ l : List Char, ∀ seg ∈ l.splitOnP p, ∀ c ∈ seg, p c = false
  | [] => by simp [List.splitOnP_nil]
  | x :: xs => by
    intro seg hseg c hc
    rw [List.splitOnP_cons] at hseg
    by_cases hx : p x = true
    · rw [if_pos hx] at hseg
      rcases List.mem_cons.mp hseg with h | h
      · subst h
        simp at hc
      · exact splitOnP_segments p xs seg h c hc
    · rw [if_neg hx] at hseg
      cases hL : xs.splitOnP p with
      | nil =>
        rw [hL] at hseg
        simp [List.modifyHead] at hseg
      | cons h0 t =>
        rw [hL] at hseg
        simp only [List.modifyHead] at hseg
        rcases List.mem_cons.mp hseg with h | h
        · subst h
          rcases List.mem_cons.mp hc with h' | h'
          · subst h'
            simpa using hx
          · exact splitOnP_segments p xs h0 (by rw [hL]; exact List.mem_cons_self _ _) c h'
        · exact splitOnP_segments p xs seg (by rw [hL]; exact List.mem_cons_of_mem _ h) c hc

theorem splitOnP_of_none (p : Char → Bool) :
    ∀ l : List Char, (∀ c ∈ l, p c = false) → l.splitOnP p = [l]
  | [], _ => List.splitOnP_nil p
  | x :: xs, h => by
    have hx : ¬ p x = true := by
      rw [h x (List.mem_cons_self _ _)]
      exact Bool.false_ne_true
    rw [List.splitOnP_cons, if_neg hx,
      splitOnP_of_none p xs (fun c hc => h c (List.mem_cons_of_mem _ hc))]
    rfl

theorem SnakeToPascalCase_eq (s : String) : SnakeToPascalCase s = some (pascalCaseOf s) := by
  unfold SnakeToPascalCase pascalCaseOf
  cases he : empty s with
  | true =>
    have hs : s = "" := (empty_iff s).mp he
    subst hs
    decide
  | false =>
    simp only [Bool.false_eq_true, if_false]
    rw [SnakeToPascalCaseLoop_eq, SplitString_segments]
    congr 1

theorem snakeSegments_ne_nil (s : String) : ∀ seg ∈ snakeSegments s, seg ≠ [] := by
  intro seg hseg h
  have := (List.mem_filter.mp hseg).2
  rw [h] at this
  simp at this

theorem pascalCaseOf_no_underscore (s : String) : '_' ∉ (pascalCaseOf s).data := by
  intro h
  simp only [pascalCaseOf, List.mem_flatten, List.mem_map] at h
  obtain ⟨l, ⟨seg, hseg, hl⟩, hc⟩ := h
  have hsplit : seg ∈ s.data.splitOnP (fun x => x == '_') := (List.mem_filter.mp hseg).1
  have hno : ∀ c ∈ seg, c ≠ '_' := by
    intro c hcseg hceq
    have := splitOnP_segments _ _ seg hsplit c hcseg
    simp [hceq] at this
  subst hl
  cases seg with
  | nil => simp [capitalizeSegment] at hc
  | cons c cs =>
    simp only [capitalizeSegment, List.mem_cons] at hc
    rcases hc with hc | hc
    · exact toUpper_ne_underscore c (hno c (List.mem_cons_self _ _)) hc.symm
    · exact hno '_' (List.mem_cons_of_mem _ hc) rfl

theorem pascalCaseOf_idem (s : String) : pascalCaseOf (pascalCaseOf s) = pascalCaseOf s := by
  have hno := pascalCaseOf_no_underscore s
  have hcap : capitalizeSegment (pascalCaseOf s).data = (pascalCaseOf s).data :=
    capitalizeSegment_flatten _ (snakeSegments_ne_nil s)
  have hsplit : (pascalCaseOf s).data.splitOn '_' = [(pascalCaseOf s).data] :=
    splitOnP_of_none _ _ (fun c hc => by
      have : c ≠ '_' := fun h => hno (h ▸ hc)
      simpa using this)
  rw [String.ext_iff]
  generalize hR : (pascalCaseOf s).data = R at hno hcap hsplit
  have h1 : (pascalCaseOf (pascalCaseOf s)).data
      = ((([R].filter fun seg => !seg.isEmpty).map capitalizeSegment).flatten) := by
    show (((((pascalCaseOf s).data.splitOn '_').filter fun seg => !seg.isEmpty).map
      capitalizeSegment).flatten) = _
    rw [hR, hsplit]
  rw [h1]
  cases R with
  | nil => rfl
  | cons c cs =>
    simp only [List.filter, List.isEmpty_cons, Bool.not_false, List.map_cons, List.map_nil,
      List.flatten_cons, List.flatten_nil, List.append_nil]
    exact hcap

/-- C22: `SnakeToPascalCase s` is `SnakeToCamelCase s` with its first character
upper-cased, and one is empty exactly when the other is; the two agree on every `s` that
starts with an underscore or an upper-case letter; and `SnakeToPascalCase` applied to its
own result returns that result. -/
theorem SnakeToPascalCase_capitalized_camel :
    (∀ s : String, SnakeToPascalCase s = (SnakeToCamelCase s).map capitalizeFirst) ∧
    (∀ s : String, SnakeToPascalCase s = some "" ↔ SnakeToCamelCase s = some "") ∧
    (∀ (s : String) (c : Char), front s = some c → (c = '_' ∨ c.isUpper = true) →
      SnakeToCamelCase s = SnakeToPascalCase s) ∧
    (∀ s : String, ∃ r, SnakeToPascalCase s = some r ∧ SnakeToPascalCase r = some r) ∧
    (∀ s : String, (SnakeToPascalCase s).bind SnakeToPascalCase = SnakeToPascalCase s) := by
  have h1 : ∀ s : String,
      SnakeToPascalCase s = (SnakeToCamelCase s).map capitalizeFirst := by
    intro s
    unfold SnakeToPascalCase SnakeToCamelCase
    cases he : empty s with
    | true =>
      have hs : s = "" := (empty_iff s).mp he
      subst hs
      decide
    | false =>
      simp only [Bool.false_eq_true, if_false]
      exact (SnakeToCamelCaseLoop_capitalized _).symm
  have h4 : ∀ s : String, ∃ r, SnakeToPascalCase s = some r ∧ SnakeToPascalCase r = some r := by
    intro s
    refine ⟨pascalCaseOf s, SnakeToPascalCase_eq s, ?_⟩
    rw [SnakeToPascalCase_eq, pascalCaseOf_idem]
  refine ⟨h1, ?_, ?_, h4, ?_⟩
  · intro s
    obtain ⟨r, hr⟩ := SnakeToCamelCase_total s
    rw [h1 s, hr]
    simp only [Option.map_some', Option.some.injEq, String.ext_iff, capitalizeFirst]
    cases hd : r.data with
    | nil => simp [capitalizeSegment]
    | cons c cs => simp [capitalizeSegment]
  · intro s c hc hcase
    cases s with
    | mk l =>
      cases l with
      | nil => simp [front] at hc
      | cons c0 cs =>
        have hc0 : c0 = c := by simpa [front] using hc
        subst hc0
        obtain ⟨rest, hrest⟩ := SplitString_first (String.mk (c0 :: cs)) c0 cs rfl
        have he : empty (String.mk (c0 :: cs)) = false := rfl
        unfold SnakeToPascalCase SnakeToCamelCase
        simp only [he, Bool.false_eq_true, if_false]
        rw [hrest]
        rcases hcase with hu | hu
        · subst hu
          have he0 : empty (String.mk []) = true := rfl
          simp only [bne_self_eq_false, List.takeWhile_cons_of_neg, Bool.false_eq_true,
            not_false_eq_true, SnakeToCamelCaseLoop, SnakeToPascalCaseLoop, he0, if_true]
          exact SnakeToCamelCaseLoop_succ rest 0 ""
        · have hne : (c0 != '_') = true := by
            rw [bne_iff_ne]
            intro h
            subst h
            exact absurd hu (by decide)
          have he1 : ∀ tl : List Char, empty (String.mk (c0 :: tl)) = false := fun _ => rfl
          have htw : (c0 :: cs).takeWhile (fun x => x != '_')
              = c0 :: cs.takeWhile (fun x => x != '_') := by
            rw [List.takeWhile_cons, hne]
            rfl
          rw [htw]
          simp only [SnakeToCamelCaseLoop, SnakeToPascalCaseLoop, he1, Bool.false_eq_true,
            if_false, if_true]
          rw [capitalize_step "" c0 _ (fun r => SnakeToPascalCaseLoop rest r),
            SnakeToCamelCaseLoop_succ]
          simp only [capitalizeSegment, toUpper_of_isUpper c0 hu]
  · intro s
    obtain ⟨r, hr, hrr⟩ := h4 s
    rw [hr, Option.some_bind, hrr]

/-- Witness of C22: `_foo_bar` starts with an underscore and `Foo_bar` with an upper-case
letter; on both the two functions agree. -/
theorem SnakeToPascalCase_capitalized_camel_witness :
    front "_foo_bar" = some '_' ∧
    SnakeToCamelCase "_foo_bar" = SnakeToPascalCase "_foo_bar" ∧
    (front "Foo_bar" = some 'F' ∧ 'F'.isUpper = true) ∧
    SnakeToCamelCase "Foo_bar" = SnakeToPascalCase "Foo_bar" :=
  ⟨by decide,
   SnakeToPascalCase_capitalized_camel.2.2.1 "_foo_bar" '_' (by decide) (Or.inl rfl),
   ⟨by decide, by decide⟩,
   SnakeToPascalCase_capitalized_camel.2.2.1 "Foo_bar" 'F' (by decide) (Or.inr (by decide))⟩

end protoc_js_gen_plugin
